import Mathlib

/-!
BackendClientCache (be/src/runtime/client-cache.cc)

A shallow embedding of the backend connection pool.  The two containers of the
class, `client_cache_` and `client_map_`, are association lists; the pointers
handed to callers (`ImpalaInternalServiceClient*`, the value of `iface()`) are
natural numbers.  Everything the pool cannot decide by itself is an explicit
input of the operation that needs it:

* the address of the object built by `new BackendClient(...)` (argument `fresh`),
* the `Status` returned by `BackendClient::Open` and `BackendClient::Close`.

The calls the pool makes to `Open` and `Close` are recorded, in order, in the
ghost field `calls`.

The container types are declared in `client-cache.h`; here an entry keeps the
place it was inserted at, an order only `DebugString` and `TestShutdown` walk
through.
-/

namespace impala

/-- Key of `client_cache_`, a `pair<string, int>` of host name and port. -/
abbrev HostPort := String × Int

/-- An `ImpalaInternalServiceClient*`, the handle callers receive and give back. -/
abbrev Handle := Nat

/-- The two outcomes of `Status`: `Status::OK` or an error carrying a message. -/
inductive Status where
  | OK
  | error (msg : String)
deriving DecidableEq, Repr

/-- The object behind a `BackendClient*`: its address pair and the interface
pointer `iface()` it owns.  Two live objects never share `iface()`, so the
record also stands for the pointer itself. -/
structure BackendClient where
  ipaddress : String
  port : Int
  iface : Handle
deriving DecidableEq, Repr

/-- One call made by the pool on a connection object. -/
inductive Call where
  | Open (c : BackendClient)
  | Close (c : BackendClient)
deriving DecidableEq, Repr

/-- Lookup in an association list: `map.find(k)`, `none` standing for `end()`. -/
def find {K V : Type} [DecidableEq K] : List (K × V) → K → Option V
  | [], _ => none
  | (k1, v) :: rest, k => if k1 = k then some v else find rest k

/-- Assignment `map[k] = v`: overwrite the entry of `k`, or add one. -/
def assign {K V : Type} [DecidableEq K] : List (K × V) → K → V → List (K × V)
  | [], k, v => [(k, v)]
  | (k1, v1) :: rest, k, v =>
    if k1 = k then (k1, v) :: rest else (k1, v1) :: assign rest k v

/-- The members of class `BackendClientCache`, with the ghost trace `calls`. -/
structure BackendClientCache where
  max_clients_ : Int
  max_clients_per_backend_ : Int
  client_cache_ : List (HostPort × List BackendClient)
  client_map_ : List (Handle × BackendClient)
  calls : List Call
deriving DecidableEq, Repr

/-- The constructor: both limits are stored, both maps start empty. -/
def BackendClientCache.new (max_clients max_clients_per_backend : Int) :
    BackendClientCache :=
  { max_clients_ := max_clients
    max_clients_per_backend_ := max_clients_per_backend
    client_cache_ := []
    client_map_ := []
    calls := [] }

/-- What `GetClient` hands back: the returned status, the value written to
`*client` (`none` when nothing is written) and the pool afterwards. -/
structure GetClientResult where
  status : Status
  client : Option Handle
  pool : BackendClientCache
deriving DecidableEq, Repr

/-- The idle list of a peer; a peer without an entry has none idle. -/
def idle (s : BackendClientCache) (hostport : HostPort) : List BackendClient :=
  (find s.client_cache_ hostport).getD []

/-- `BackendClientCache::GetClient`.  The entry of `hostport` is inserted when
missing; a non-empty idle list gives up its front element, otherwise a new
`BackendClient` (interface pointer `fresh`) is built, opened with outcome
`open_status` and, when that is `OK`, registered in `client_map_`.  When `Open`
fails, `RETURN_IF_ERROR` leaves the function and the `auto_ptr` frees the
object; nothing of it stays in the pool. -/
def GetClient (s : BackendClientCache) (hostport : HostPort) (fresh : Handle)
    (open_status : Status) : GetClientResult :=
  let cache :=
    match find s.client_cache_ hostport with
    | some _ => s.client_cache_
    | none => s.client_cache_ ++ [(hostport, [])]
  match (find cache hostport).getD [] with
  | front :: rest =>
    { status := Status.OK
      client := some front.iface
      pool := { s with client_cache_ := assign cache hostport rest } }
  | [] =>
    let info : BackendClient := ⟨hostport.1, hostport.2, fresh⟩
    let s1 : BackendClientCache :=
      { s with client_cache_ := cache, calls := s.calls ++ [Call.Open info] }
    match open_status with
    | Status.error msg => { status := Status.error msg, client := none, pool := s1 }
    | Status.OK =>
      { status := Status.OK
        client := some info.iface
        pool := { s1 with client_map_ := assign s1.client_map_ info.iface info } }

/-- `BackendClientCache::ReopenClient`: `Close` then `Open` on the connection
of `client`, each guarded by `RETURN_IF_ERROR`.  `none` is a failed `DCHECK`. -/
def ReopenClient (s : BackendClientCache) (client : Handle)
    (close_status open_status : Status) : Option (Status × BackendClientCache) :=
  match find s.client_map_ client with
  | none => none
  | some info =>
    let s1 : BackendClientCache := { s with calls := s.calls ++ [Call.Close info] }
    match close_status with
    | Status.error msg => some (Status.error msg, s1)
    | Status.OK =>
      let s2 : BackendClientCache := { s1 with calls := s1.calls ++ [Call.Open info] }
      match open_status with
      | Status.error msg => some (Status.error msg, s2)
      | Status.OK => some (Status.OK, s2)

/-- `BackendClientCache::ReleaseClient`: the connection of `client` is appended
to the idle list of its own address.  `none` is a failed `DCHECK` (unknown
handle, or no `client_cache_` entry for the address). -/
def ReleaseClient (s : BackendClientCache) (client : Handle) :
    Option BackendClientCache :=
  match find s.client_map_ client with
  | none => none
  | some info =>
    match find s.client_cache_ (info.ipaddress, info.port) with
    | none => none
    | some l =>
      some { s with
        client_cache_ := assign s.client_cache_ (info.ipaddress, info.port) (l ++ [info]) }

/-- `BackendClientCache::CloseConnections`: `Close` is called on every element
of the peer's list, in list order; the returned statuses are dropped and no
container is modified. -/
def CloseConnections (s : BackendClientCache) (hostport : HostPort) :
    BackendClientCache :=
  match find s.client_cache_ hostport with
  | none => s
  | some l => { s with calls := s.calls ++ l.map Call.Close }

/-- The loop body of `DebugString` over the entries, `first` telling whether
the entry is `client_cache_.begin()`. -/
def debugEntries : List (HostPort × List BackendClient) → Bool → String
  | [], _ => ""
  | (hp, l) :: rest, first =>
    (if first then "" else " ") ++ hp.1 ++ ":" ++ toString hp.2 ++ ":" ++
      toString l.length ++ debugEntries rest false

/-- `BackendClientCache::DebugString`. -/
def DebugString (s : BackendClientCache) : String :=
  "BackendClientCache(#hosts=" ++ toString s.client_cache_.length ++ " [" ++
    debugEntries s.client_cache_ true ++ "])"

/-- `BackendClientCache::TestShutdown`: the keys of `client_cache_` are
collected first, then `CloseConnections` runs on each of them in turn. -/
def TestShutdown (s : BackendClientCache) : BackendClientCache :=
  let hostports := s.client_cache_.map Prod.fst
  hostports.foldl CloseConnections s

/-- Pool states reachable from a newly constructed pool.  `GetClient` gets an
interface pointer that no registered (hence live) connection owns. -/
inductive Reachable : BackendClientCache → Prop
  | init (m n : Int) : Reachable (BackendClientCache.new m n)
  | getClient (s : BackendClientCache) (hostport : HostPort) (fresh : Handle)
      (open_status : Status) :
      Reachable s → find s.client_map_ fresh = none →
      Reachable (GetClient s hostport fresh open_status).pool
  | releaseClient (s t : BackendClientCache) (client : Handle) :
      Reachable s → ReleaseClient s client = some t → Reachable t
  | reopenClient (s t : BackendClientCache) (client : Handle)
      (close_status open_status st : Status) :
      Reachable s → ReopenClient s client close_status open_status = some (st, t) →
      Reachable t
  | closeConnections (s : BackendClientCache) (hostport : HostPort) :
      Reachable s → Reachable (CloseConnections s hostport)
  | testShutdown (s : BackendClientCache) :
      Reachable s → Reachable (TestShutdown s)

/-- The cache as `GetClient` sees it after the lookup-or-insert of lines 49-54. -/
def withEntry (cache : List (HostPort × List BackendClient)) (hostport : HostPort) :
    List (HostPort × List BackendClient) :=
  match find cache hostport with
  | some _ => cache
  | none => cache ++ [(hostport, [])]

/-- The invariant of reachable pools that `ReleaseClient` relies on: a handle
is registered under the `iface()` of its connection, whose address has an
entry in `client_cache_`. -/
def WellFormed (s : BackendClientCache) : Prop :=
  ∀ (h : Handle) (c : BackendClient), find s.client_map_ h = some c →
    c.iface = h ∧ (find s.client_cache_ (c.ipaddress, c.port)).isSome

/-- The `Close` calls one `CloseConnections(hostport)` makes. -/
def closeCalls (s : BackendClientCache) (hostport : HostPort) : List Call :=
  (idle s hostport).map Call.Close

/-- `ReleaseClient` on each handle of the list, first to last. -/
def releaseAll (s : BackendClientCache) : List Handle → Option BackendClientCache
  | [] => some s
  | h :: hs =>
    match ReleaseClient s h with
    | none => none
    | some t => releaseAll t hs

/-- One `GetClient(addr)` per element of `env` (the address offered by `new` and
the outcome of `Open` for that call); the values written to `*client`, in call
order, and the final pool. -/
def getClients (s : BackendClientCache) (addr : HostPort) :
    List (Handle × Status) → List (Option Handle) × BackendClientCache
  | [] => ([], s)
  | (fresh, st) :: env =>
    let r := GetClient s addr fresh st
    let later := getClients r.pool addr env
    (r.client :: later.1, later.2)

/-- Peer used in the scenarios. -/
def peerH1 : HostPort := ("h1", 100)

/-- Connection of `peerH1` with interface pointer `h`. -/
def connH1 (h : Handle) : BackendClient := ⟨"h1", 100, h⟩

/-- The pool after `GetClient` twice on `peerH1` (handles 1 and 2) and
`ReleaseClient(1)`: connection 1 idle, connection 2 checked out. -/
def poolOneIdleOneOut : BackendClientCache :=
  { max_clients_ := 0
    max_clients_per_backend_ := 0
    client_cache_ := [(peerH1, [connH1 1])]
    client_map_ := [(1, connH1 1), (2, connH1 2)]
    calls := [Call.Open (connH1 1), Call.Open (connH1 2)] }

/-- The pool after `GetClient(peerH1)` (handle 1) and `ReleaseClient(1)`. -/
def poolOneIdle : BackendClientCache :=
  { max_clients_ := 0
    max_clients_per_backend_ := 0
    client_cache_ := [(peerH1, [connH1 1])]
    client_map_ := [(1, connH1 1)]
    calls := [Call.Open (connH1 1)] }

/-- The pool after `GetClient` twice on `peerH1` (handles 1 and 2), both
connections checked out. -/
def poolTwoOut : BackendClientCache :=
  { max_clients_ := 0
    max_clients_per_backend_ := 0
    client_cache_ := [(peerH1, [])]
    client_map_ := [(1, connH1 1), (2, connH1 2)]
    calls := [Call.Open (connH1 1), Call.Open (connH1 2)] }

/-- The connection a call is made on. -/
def Call.target : Call → BackendClient
  | Call.Open c => c
  | Call.Close c => c

/-- The calls made on connection `c`, in order: all that its open/closed
state depends on. -/
def callsOn (c : BackendClient) (calls : List Call) : List Call :=
  calls.filter (fun e => e.target = c)

/-- Peer of the failed checkout scenario. -/
def peerH2 : HostPort := ("h2", 200)

/-- A call of a checkout/release sequence on one peer: `GetClient` with the
address `new` hands out should a connection be built, or `ReleaseClient`. -/
inductive PoolOp where
  | get (fresh : Handle)
  | release (client : Handle)
deriving DecidableEq, Repr

/-- Why a sequence stops: a release of a handle that is not checked out (the
sequence is not one the pool is meant to see), or a failed `DCHECK`. -/
inductive RunError where
  | notCheckedOut
  | dcheck
deriving DecidableEq, Repr

/-- The pool together with the bookkeeping of an observer: the handles that
are checked out, and the largest number of them checked out at once so far. -/
structure RunState where
  pool : BackendClientCache
  outstanding : List Handle
  maxOutstanding : Nat

/-- The observer before the first call, on a newly constructed pool. -/
def RunState.start (m n : Int) : RunState :=
  { pool := BackendClientCache.new m n, outstanding := [], maxOutstanding := 0 }

/-- One call on peer `addr`, every `Open` succeeding. -/
def step (addr : HostPort) (rs : RunState) : PoolOp → Except RunError RunState
  | PoolOp.get fresh =>
    let r := GetClient rs.pool addr fresh Status.OK
    let out := r.client.toList ++ rs.outstanding
    Except.ok
      { pool := r.pool
        outstanding := out
        maxOutstanding := max rs.maxOutstanding out.length }
  | PoolOp.release client =>
    if client ∈ rs.outstanding then
      match ReleaseClient rs.pool client with
      | none => Except.error RunError.dcheck
      | some t =>
        Except.ok
          { pool := t
            outstanding := rs.outstanding.erase client
            maxOutstanding := rs.maxOutstanding }
    else Except.error RunError.notCheckedOut

/-- A sequence of calls on peer `addr`, stopping at the first error. -/
def run (addr : HostPort) : RunState → List PoolOp → Except RunError RunState
  | rs, [] => Except.ok rs
  | rs, op :: ops =>
    match step addr rs op with
    | Except.error e => Except.error e
    | Except.ok rs1 => run addr rs1 ops

/-- Number of connections built so far: the `Open` calls among `calls`. -/
def connectionsCreated (s : BackendClientCache) : Nat :=
  s.calls.countP (fun c => match c with
    | Call.Open _ => true
    | Call.Close _ => false)

/-- What a checkout/release run on peer `addr` keeps true. -/
structure RunInv (addr : HostPort) (rs : RunState) : Prop where
  known : ∀ h ∈ rs.outstanding, (find rs.pool.client_map_ h).isSome
  peer : ∀ (h : Handle) (c : BackendClient), find rs.pool.client_map_ h = some c →
    c.iface = h ∧ (c.ipaddress, c.port) = addr ∧ (find rs.pool.client_cache_ addr).isSome
  idleKnown : ∀ c ∈ idle rs.pool addr, (find rs.pool.client_map_ c.iface).isSome
  count : connectionsCreated rs.pool = (idle rs.pool addr).length + rs.outstanding.length
  bound : connectionsCreated rs.pool ≤ rs.maxOutstanding
  registered : rs.pool.client_map_.length ≤ connectionsCreated rs.pool

/-- Every operation of the pool, with the inputs that come from outside: the
address `new` hands out and the statuses `Open` and `Close` return. -/
inductive CacheOp where
  | getClient (hostport : HostPort) (fresh : Handle) (open_status : Status)
  | reopenClient (client : Handle) (close_status open_status : Status)
  | releaseClient (client : Handle)
  | closeConnections (hostport : HostPort)
  | debugString
  | testShutdown
deriving DecidableEq, Repr

/-- What an operation gives back to its caller. -/
inductive CacheResult where
  | getClient (status : Status) (client : Option Handle)
  | reopenClient (status : Status)
  | done
  | debugString (text : String)
deriving DecidableEq, Repr

/-- One operation on the pool: its result and the pool afterwards, `none` for
a failed `DCHECK`. -/
def exec (s : BackendClientCache) : CacheOp → Option (CacheResult × BackendClientCache)
  | CacheOp.getClient hostport fresh open_status =>
    let r := GetClient s hostport fresh open_status
    some (CacheResult.getClient r.status r.client, r.pool)
  | CacheOp.reopenClient client close_status open_status =>
    match ReopenClient s client close_status open_status with
    | none => none
    | some (st, t) => some (CacheResult.reopenClient st, t)
  | CacheOp.releaseClient client =>
    match ReleaseClient s client with
    | none => none
    | some t => some (CacheResult.done, t)
  | CacheOp.closeConnections hostport => some (CacheResult.done, CloseConnections s hostport)
  | CacheOp.debugString => some (CacheResult.debugString (DebugString s), s)
  | CacheOp.testShutdown => some (CacheResult.done, TestShutdown s)

/-- A sequence of operations: the results in call order and the final pool. -/
def execAll (s : BackendClientCache) :
    List CacheOp → Option (List CacheResult × BackendClientCache)
  | [] => some ([], s)
  | op :: ops =>
    match exec s op with
    | none => none
    | some (r, t) =>
      match execAll t ops with
      | none => none
      | some (rs, u) => some (r :: rs, u)

/-- The environment keeps its promise for `op`: the address `new` hands to
`GetClient` is not the interface pointer of a registered connection. -/
def CacheOp.freshFor (s : BackendClientCache) : CacheOp → Prop
  | CacheOp.getClient _ fresh _ => find s.client_map_ fresh = none
  | _ => True

/-- The same pool with other values for the two limits. -/
def setLimits (s : BackendClientCache) (m n : Int) : BackendClientCache :=
  { s with max_clients_ := m, max_clients_per_backend_ := n }

/-- Every idle list of `client_cache_`, one after the other. -/
def allIdle (s : BackendClientCache) : List BackendClient :=
  s.client_cache_.flatMap Prod.snd

/-- Pools reachable from a new one, together with the handles that are checked
out: a handle is checked out from the `GetClient` that returns it until it is
given to `ReleaseClient`, and `ReleaseClient` only gets such handles. -/
inductive Tracked : BackendClientCache → List Handle → Prop
  | init (m n : Int) : Tracked (BackendClientCache.new m n) []
  | getClient (s : BackendClientCache) (out : List Handle) (hostport : HostPort)
      (fresh : Handle) (open_status : Status) :
      Tracked s out → find s.client_map_ fresh = none →
      Tracked (GetClient s hostport fresh open_status).pool
        ((GetClient s hostport fresh open_status).client.toList ++ out)
  | releaseClient (s t : BackendClientCache) (out : List Handle) (client : Handle) :
      Tracked s out → client ∈ out → ReleaseClient s client = some t →
      Tracked t (out.erase client)
  | reopenClient (s t : BackendClientCache) (out : List Handle) (client : Handle)
      (close_status open_status st : Status) :
      Tracked s out → ReopenClient s client close_status open_status = some (st, t) →
      Tracked t out
  | closeConnections (s : BackendClientCache) (out : List Handle) (hostport : HostPort) :
      Tracked s out → Tracked (CloseConnections s hostport) out
  | testShutdown (s : BackendClientCache) (out : List Handle) :
      Tracked s out → Tracked (TestShutdown s) out

/-- What holds of a pool and its checked-out handles along `Tracked`. -/
structure TrackInv (s : BackendClientCache) (out : List Handle) : Prop where
  registered : ∀ (h : Handle) (c : BackendClient), find s.client_map_ h = some c →
    c.iface = h ∧ (find s.client_cache_ (c.ipaddress, c.port)).isSome ∧
    (h ∈ out ∨ c ∈ idle s (c.ipaddress, c.port))
  idleNodup : (allIdle s).Nodup
  ownPeer : ∀ e ∈ s.client_cache_, ∀ c ∈ e.2, (c.ipaddress, c.port) = e.1
  idleKnown : ∀ c ∈ allIdle s, find s.client_map_ c.iface = some c ∧ c.iface ∉ out
  outKnown : ∀ h ∈ out, (find s.client_map_ h).isSome
  outNodup : out.Nodup

/-- The pool after `GetClient(peerH1)` (handle 1) and `ReleaseClient(1)` twice:
the same connection sits twice in the idle list. -/
def poolDoubleRelease : BackendClientCache :=
  { max_clients_ := 0
    max_clients_per_backend_ := 0
    client_cache_ := [(peerH1, [connH1 1, connH1 1])]
    client_map_ := [(1, connH1 1)]
    calls := [Call.Open (connH1 1)] }

/-- The pool after one successful `GetClient(peerH1)` (handle 1), the
connection checked out. -/
def poolOneOut : BackendClientCache :=
  { max_clients_ := 0
    max_clients_per_backend_ := 0
    client_cache_ := [(peerH1, [])]
    client_map_ := [(1, connH1 1)]
    calls := [Call.Open (connH1 1)] }

/-- The pool after `GetClient(peerH1)` (handle 1), `ReleaseClient(1)` twice and
`GetClient(peerH1)` again: the last call returned handle 1, so it is checked
out, and connection 1 is still in the idle list. -/
def poolHeldAndIdle : BackendClientCache :=
  (GetClient poolDoubleRelease peerH1 2 Status.OK).pool

/-! HdfsByteStream (be/src/exec/hdfs-byte-stream.cc) -/

/-- Value of a C++ `int` (and of a `tSize` of libhdfs): 32 bits, two's
complement. -/
def wrapInt32 (x : Int) : Int := (x + 2147483648) % 4294967296 - 2147483648

/-- Value of an `int64_t`. -/
def wrapInt64 (x : Int) : Int :=
  (x + 9223372036854775808) % 18446744073709551616 - 9223372036854775808

/-- The members `Read` touches: the file name, the running total of the base
class, and the `bytes_read_counter()` of the scan node. -/
structure HdfsByteStream where
  location_ : String
  total_bytes_read_ : Int
  bytes_read_counter : Int
deriving DecidableEq, Repr

/-- How the loop of `Read` was left: `hdfsRead` returned 0, it returned -1, or
the loop condition `n_read < req_length` became false. -/
inductive ReadEnd where
  | eof
  | failed
  | full
deriving DecidableEq, Repr

/-- State at the end of the loop: `n_read` and the values `hdfsRead` returned,
in call order. -/
structure ReadLoopResult where
  ending : ReadEnd
  n_read : Int
  results : List Int
deriving DecidableEq, Repr

/-- The `while (n_read < req_length)` loop of `Read`.  `hdfsRead i len` is what
the `i`-th call of `hdfsRead` returns when asked for `len` bytes; the length
`req_length - n_read` is passed as a `tSize`, and `n_read` is an `int`.  `none`
means the iterations allowed by the first argument are used up. -/
def ReadLoop (hdfsRead : Nat → Int → Int) (req_length : Int) :
    Nat → Nat → Int → List Int → Option ReadLoopResult
  | 0, _, n_read, results =>
    if n_read < req_length then none else some ⟨ReadEnd.full, n_read, results⟩
  | fuel + 1, i, n_read, results =>
    if n_read < req_length then
      let last_read := hdfsRead i (wrapInt32 (req_length - n_read))
      if last_read = 0 then some ⟨ReadEnd.eof, n_read, results ++ [last_read]⟩
      else if last_read = -1 then some ⟨ReadEnd.failed, n_read, results ++ [last_read]⟩
      else ReadLoop hdfsRead req_length fuel (i + 1) (wrapInt32 (n_read + last_read))
        (results ++ [last_read])
    else some ⟨ReadEnd.full, n_read, results⟩

/-- What `Read` hands back: the status, the value written to `*actual_length`
(`none` when nothing is written), the stream afterwards, and the values
`hdfsRead` returned. -/
structure ReadResult where
  status : Status
  actual_length : Option Int
  stream : HdfsByteStream
  results : List Int
deriving DecidableEq, Repr

/-- Why a run of `Read` gives no result: `DCHECK(req_length >= 0)` failed, or
the allowed number of iterations is used up. -/
inductive ReadStop where
  | dcheck
  | fuel
deriving DecidableEq, Repr

/-- `HdfsByteStream::Read` on a non-null buffer.  `AppendHdfsErrorMessage` comes
from `util/hdfs-util.h` and is an argument.  Only the exit through the end of
the loop updates the counter and `total_bytes_read_`. -/
def Read (s : HdfsByteStream) (AppendHdfsErrorMessage : String → String → String)
    (hdfsRead : Nat → Int → Int) (req_length : Int) (fuel : Nat) :
    Except ReadStop ReadResult :=
  if req_length < 0 then Except.error ReadStop.dcheck
  else
    match ReadLoop hdfsRead req_length fuel 0 0 [] with
    | none => Except.error ReadStop.fuel
    | some r =>
      match r.ending with
      | ReadEnd.eof =>
        Except.ok
          { status := Status.OK, actual_length := some r.n_read, stream := s,
            results := r.results }
      | ReadEnd.failed =>
        Except.ok
          { status := Status.error
              (AppendHdfsErrorMessage "Error reading from HDFS file: " s.location_)
            actual_length := none, stream := s, results := r.results }
      | ReadEnd.full =>
        Except.ok
          { status := Status.OK
            actual_length := some r.n_read
            stream := { s with
              bytes_read_counter := wrapInt64 (s.bytes_read_counter + r.n_read)
              total_bytes_read_ := wrapInt64 (s.total_bytes_read_ + r.n_read) }
            results := r.results }

/-- The assumption on `hdfsRead`: each call returns -1, 0, or a positive count
not above the length it was asked for. -/
def ValidReads (hdfsRead : Nat → Int → Int) : Prop :=
  ∀ i len, hdfsRead i len = -1 ∨ hdfsRead i len = 0 ∨
    (0 < hdfsRead i len ∧ hdfsRead i len ≤ len)

/-- Sum of the positive counts among the values `hdfsRead` returned. -/
def positiveSum (results : List Int) : Int :=
  (results.filter (fun r => 0 < r)).sum

/-- What `ReadLoop` guarantees at its end, in terms of the positive counts
`pos` read before the last call. -/
def ReadLoopPost (req_length : Int) (r : ReadLoopResult) : Prop :=
  ∃ pos : List Int, (∀ x ∈ pos, 0 < x) ∧ pos.sum = r.n_read ∧
    0 ≤ r.n_read ∧ r.n_read ≤ req_length ∧
    (r.ending = ReadEnd.full → r.results = pos ∧ r.n_read = req_length) ∧
    (r.ending = ReadEnd.eof → r.results = pos ++ [0]) ∧
    (r.ending = ReadEnd.failed → r.results = pos ++ [-1])

/-- The list `results` is what `hdfsRead` returned on the successive calls of
the loop, started at call `i` with `n_read` bytes read so far: each value is
the answer to the length the loop asks for at that point. -/
def IsTrace (hdfsRead : Nat → Int → Int) (req_length : Int) :
    Nat → Int → List Int → Prop
  | _, _, [] => True
  | i, n_read, r :: rest =>
    hdfsRead i (wrapInt32 (req_length - n_read)) = r ∧
    IsTrace hdfsRead req_length (i + 1) (wrapInt32 (n_read + r)) rest

/-- The successive calls of `hdfsRead`, from call `i` with `n_read` bytes read so
far, return the positive counts of `counts`, each within the length asked. -/
def Answers (hdfsRead : Nat → Int → Int) (req_length : Int) :
    Nat → Int → List Int → Prop
  | _, _, [] => True
  | i, n_read, r :: rest =>
    0 < r ∧ r ≤ wrapInt32 (req_length - n_read) ∧
    hdfsRead i (wrapInt32 (req_length - n_read)) = r ∧
    Answers hdfsRead req_length (i + 1) (wrapInt32 (n_read + r)) rest

/-- The stream after a read that went through to the end of the loop with
`n_read` bytes: counter and total are increased by `n_read`. -/
def HdfsByteStream.afterFullRead (s : HdfsByteStream) (n_read : Int) : HdfsByteStream :=
  { s with
    bytes_read_counter := wrapInt64 (s.bytes_read_counter + n_read)
    total_bytes_read_ := wrapInt64 (s.total_bytes_read_ + n_read) }

/-- A file of 10 bytes read in pieces of at most 4: the `i`-th call returns
what is left of the 10 bytes after `4 * i`, capped by 4 and by the length. -/
def tenBytes (i : Nat) (len : Int) : Int :=
  max 0 (min (min 4 len) (10 - 4 * (i : Int)))

/-- A stream that has read 100 bytes so far. -/
def streamAt100 : HdfsByteStream :=
  { location_ := "/data/part-0", total_bytes_read_ := 100, bytes_read_counter := 100 }

/-! ## Container lemmas -/

theorem find_assign {K V : Type} [DecidableEq K] (m : List (K × V)) (k k2 : K) (v : V) :
    find (assign m k v) k2 = if k = k2 then some v else find m k2 := by
  induction m with
  | nil => simp [assign, find]
  | cons e rest ih =>
    obtain ⟨k1, v1⟩ := e
    by_cases h1 : k1 = k
    · subst h1
      by_cases h2 : k1 = k2 <;> simp [assign, find, h2]
    · by_cases h2 : k1 = k2
      · subst h2
        have h3 : ¬ k = k1 := fun h => h1 h.symm
        simp [assign, find, h1, h3]
      · simp [assign, find, h1, h2, ih]

theorem find_assign_self {K V : Type} [DecidableEq K] (m : List (K × V)) (k : K) (v : V) :
    find (assign m k v) k = some v := by
  simp [find_assign]

theorem find_assign_ne {K V : Type} [DecidableEq K] (m : List (K × V)) (k k2 : K) (v : V)
    (h : k ≠ k2) : find (assign m k v) k2 = find m k2 := by
  simp [find_assign, h]

theorem find_append_single {K V : Type} [DecidableEq K] (m : List (K × V)) (k k2 : K)
    (v : V) :
    find (m ++ [(k, v)]) k2 =
      match find m k2 with
      | some x => some x
      | none => if k = k2 then some v else none := by
  induction m with
  | nil => simp [find]
  | cons e rest ih =>
    obtain ⟨k1, v1⟩ := e
    by_cases h1 : k1 = k2
    · simp [find, h1]
    · simp [find, h1, ih]

theorem assign_length_le {K V : Type} [DecidableEq K] (m : List (K × V)) (k : K) (v : V) :
    (assign m k v).length ≤ m.length + 1 := by
  induction m with
  | nil => simp [assign]
  | cons e rest ih =>
    obtain ⟨k1, v1⟩ := e
    by_cases h1 : k1 = k
    · simp [assign, h1]
    · simp [assign, h1]
      omega

theorem find_withEntry (cache : List (HostPort × List BackendClient))
    (hostport p : HostPort) :
    (find (withEntry cache hostport) p).getD [] = (find cache p).getD [] := by
  unfold withEntry
  cases h : find cache hostport with
  | some l => rfl
  | none =>
    simp only [find_append_single]
    cases h2 : find cache p with
    | some x => rfl
    | none => by_cases h3 : hostport = p <;> simp [h3]

theorem find_withEntry_self (cache : List (HostPort × List BackendClient))
    (hostport : HostPort) :
    find (withEntry cache hostport) hostport = some ((find cache hostport).getD []) := by
  unfold withEntry
  cases h : find cache hostport with
  | some l => simp [h]
  | none => simp [find_append_single, h]

theorem find_withEntry_isSome (cache : List (HostPort × List BackendClient))
    (hostport p : HostPort) (h : (find cache p).isSome) :
    (find (withEntry cache hostport) p).isSome := by
  unfold withEntry
  cases h1 : find cache hostport with
  | some l => simpa using h
  | none =>
    simp only [find_append_single]
    cases h2 : find cache p with
    | some x => rfl
    | none => simp [h2] at h

/-! ## The two paths of `GetClient` -/

theorem GetClient_reuse (s : BackendClientCache) (hostport : HostPort) (fresh : Handle)
    (open_status : Status) (front : BackendClient) (rest : List BackendClient)
    (h : find s.client_cache_ hostport = some (front :: rest)) :
    GetClient s hostport fresh open_status =
      { status := Status.OK
        client := some front.iface
        pool := { s with client_cache_ := assign s.client_cache_ hostport rest } } := by
  simp [GetClient, h]

theorem GetClient_create_ok (s : BackendClientCache) (hostport : HostPort) (fresh : Handle)
    (h : idle s hostport = []) :
    GetClient s hostport fresh Status.OK =
      { status := Status.OK
        client := some fresh
        pool := { s with
          client_cache_ := withEntry s.client_cache_ hostport
          calls := s.calls ++ [Call.Open ⟨hostport.1, hostport.2, fresh⟩]
          client_map_ := assign s.client_map_ fresh ⟨hostport.1, hostport.2, fresh⟩ } } := by
  unfold idle at h
  cases h1 : find s.client_cache_ hostport with
  | some l =>
    simp [h1] at h
    subst h
    simp [GetClient, h1, withEntry]
  | none => simp [GetClient, h1, withEntry, find_append_single]

theorem GetClient_create_error (s : BackendClientCache) (hostport : HostPort)
    (fresh : Handle) (msg : String) (h : idle s hostport = []) :
    GetClient s hostport fresh (Status.error msg) =
      { status := Status.error msg
        client := none
        pool := { s with
          client_cache_ := withEntry s.client_cache_ hostport
          calls := s.calls ++ [Call.Open ⟨hostport.1, hostport.2, fresh⟩] } } := by
  unfold idle at h
  cases h1 : find s.client_cache_ hostport with
  | some l =>
    simp [h1] at h
    subst h
    simp [GetClient, h1, withEntry]
  | none => simp [GetClient, h1, withEntry, find_append_single]

/-! ## Frames and invariants -/

theorem idle_cons (s : BackendClientCache) (hostport : HostPort) (c : BackendClient)
    (rest : List BackendClient) (h : idle s hostport = c :: rest) :
    find s.client_cache_ hostport = some (c :: rest) := by
  unfold idle at h
  cases h1 : find s.client_cache_ hostport with
  | some l => simpa [h1] using h
  | none => simp [h1] at h

theorem CloseConnections_eq (s : BackendClientCache) (hostport : HostPort) :
    CloseConnections s hostport = { s with calls := s.calls ++ closeCalls s hostport } := by
  unfold CloseConnections closeCalls idle
  cases h : find s.client_cache_ hostport <;> simp

theorem foldl_CloseConnections (hps : List HostPort) (s : BackendClientCache) :
    hps.foldl CloseConnections s =
      { s with calls := s.calls ++ hps.flatMap (closeCalls s) } := by
  induction hps generalizing s with
  | nil => simp
  | cons hp rest ih =>
    rw [List.foldl_cons, ih, CloseConnections_eq]
    have h : closeCalls { s with calls := s.calls ++ closeCalls s hp } = closeCalls s := by
      funext p
      rfl
    simp [h]

theorem TestShutdown_eq (s : BackendClientCache) :
    TestShutdown s =
      { s with calls := s.calls ++ (s.client_cache_.map Prod.fst).flatMap (closeCalls s) } := by
  unfold TestShutdown
  exact foldl_CloseConnections _ s

theorem WellFormed_GetClient (s : BackendClientCache) (hostport : HostPort)
    (fresh : Handle) (open_status : Status) (hs : WellFormed s) :
    WellFormed (GetClient s hostport fresh open_status).pool := by
  cases hi : idle s hostport with
  | cons front rest =>
    rw [GetClient_reuse s hostport fresh open_status front rest (idle_cons _ _ _ _ hi)]
    intro h c hc
    obtain ⟨h1, h2⟩ := hs h c hc
    refine ⟨h1, ?_⟩
    simp only [find_assign]
    split
    · rfl
    · exact h2
  | nil =>
    cases open_status with
    | error msg =>
      rw [GetClient_create_error s hostport fresh msg hi]
      intro h c hc
      obtain ⟨h1, h2⟩ := hs h c hc
      exact ⟨h1, find_withEntry_isSome _ _ _ h2⟩
    | OK =>
      rw [GetClient_create_ok s hostport fresh hi]
      intro h c hc
      simp only [find_assign] at hc
      by_cases hf : fresh = h
      · simp [hf] at hc
        subst hc
        refine ⟨rfl, ?_⟩
        simp [find_withEntry_self]
      · simp [hf] at hc
        obtain ⟨h1, h2⟩ := hs h c hc
        exact ⟨h1, find_withEntry_isSome _ _ _ h2⟩

theorem ReleaseClient_eq (s t : BackendClientCache) (client : Handle)
    (h : ReleaseClient s client = some t) :
    ∃ c, find s.client_map_ client = some c ∧
      (find s.client_cache_ (c.ipaddress, c.port)).isSome ∧
      t = { s with
        client_cache_ := assign s.client_cache_ (c.ipaddress, c.port)
          (idle s (c.ipaddress, c.port) ++ [c]) } := by
  unfold ReleaseClient at h
  cases h1 : find s.client_map_ client with
  | none => simp [h1] at h
  | some c =>
    simp only [h1] at h
    cases h2 : find s.client_cache_ (c.ipaddress, c.port) with
    | none => simp [h2] at h
    | some l =>
      simp only [h2, Option.some.injEq] at h
      exact ⟨c, rfl, by simp [h2], by simp [idle, h2, ← h]⟩

theorem ReleaseClient_some (s : BackendClientCache) (client : Handle) (c : BackendClient)
    (h1 : find s.client_map_ client = some c)
    (h2 : (find s.client_cache_ (c.ipaddress, c.port)).isSome) :
    ReleaseClient s client = some { s with
        client_cache_ := assign s.client_cache_ (c.ipaddress, c.port)
          (idle s (c.ipaddress, c.port) ++ [c]) } := by
  unfold ReleaseClient idle
  cases h3 : find s.client_cache_ (c.ipaddress, c.port) with
  | none => simp [h3] at h2
  | some l => simp [h1, h3]

theorem WellFormed_ReleaseClient (s t : BackendClientCache) (client : Handle)
    (hs : WellFormed s) (h : ReleaseClient s client = some t) : WellFormed t := by
  obtain ⟨c, _, _, rfl⟩ := ReleaseClient_eq s t client h
  intro h c2 hc
  obtain ⟨h1, h2⟩ := hs h c2 hc
  refine ⟨h1, ?_⟩
  simp only [find_assign]
  split
  · rfl
  · exact h2

theorem ReopenClient_frame (s t : BackendClientCache) (client : Handle)
    (close_status open_status st : Status)
    (h : ReopenClient s client close_status open_status = some (st, t)) :
    t.client_cache_ = s.client_cache_ ∧ t.client_map_ = s.client_map_ := by
  unfold ReopenClient at h
  cases h1 : find s.client_map_ client with
  | none => simp [h1] at h
  | some c =>
    cases close_status <;> cases open_status <;> simp [h1] at h <;>
      (obtain ⟨_, rfl⟩ := h; exact ⟨rfl, rfl⟩)

theorem Reachable_wellFormed (s : BackendClientCache) (h : Reachable s) : WellFormed s := by
  induction h with
  | init m n =>
    intro h c hc
    simp [BackendClientCache.new, find] at hc
  | getClient s hostport fresh open_status _ _ ih =>
    exact WellFormed_GetClient s hostport fresh open_status ih
  | releaseClient s t client _ hrel ih =>
    exact WellFormed_ReleaseClient s t client ih hrel
  | reopenClient s t client close_status open_status st _ hre ih =>
    obtain ⟨h1, h2⟩ := ReopenClient_frame s t client close_status open_status st hre
    intro h c hc
    rw [h2] at hc
    rw [h1]
    exact ih h c hc
  | closeConnections s hostport _ ih =>
    rw [CloseConnections_eq]
    exact ih
  | testShutdown s _ ih =>
    rw [TestShutdown_eq]
    exact ih

/-! ## Runs of releases and checkouts on one peer -/

theorem releaseAll_peer (addr : HostPort) (hs : List Handle) (s : BackendClientCache)
    (hw : WellFormed s)
    (hpeer : ∀ h ∈ hs, ∃ c, find s.client_map_ h = some c ∧ (c.ipaddress, c.port) = addr) :
    ∃ t, releaseAll s hs = some t ∧ t.client_map_ = s.client_map_ ∧
      t.calls = s.calls ∧ WellFormed t ∧
      idle t addr = idle s addr ++ hs.map (fun h => ⟨addr.1, addr.2, h⟩) := by
  induction hs generalizing s with
  | nil => exact ⟨s, rfl, rfl, rfl, hw, by simp⟩
  | cons h rest ih =>
    obtain ⟨c, hc, ha⟩ := hpeer h (List.mem_cons_self h rest)
    obtain ⟨hif, hkey⟩ := hw h c hc
    have hrel := ReleaseClient_some s h c hc hkey
    have hw1 := WellFormed_ReleaseClient s _ h hw hrel
    have hceq : c = ⟨addr.1, addr.2, h⟩ := by
      cases c
      simp only [Prod.ext_iff] at ha
      simp at ha hif
      simp [← ha.1, ← ha.2, hif]
    obtain ⟨t, ht1, ht2, ht3, ht4, ht5⟩ := ih _ hw1 (by
      intro h2 hm
      exact hpeer h2 (List.mem_cons_of_mem h hm))
    refine ⟨t, ?_, ht2, ht3, ht4, ?_⟩
    · simp [releaseAll, hrel, ht1]
    · rw [ht5]
      rw [ha]
      simp [idle, find_assign_self, ← hceq]

theorem getClients_reuse (addr : HostPort) (l more : List BackendClient)
    (s : BackendClientCache) (env : List (Handle × Status))
    (henv : env.length = l.length) (hi : idle s addr = l ++ more) :
    (getClients s addr env).1 = l.map (fun c => some c.iface) ∧
    (getClients s addr env).2.calls = s.calls ∧
    (getClients s addr env).2.client_map_ = s.client_map_ ∧
    idle (getClients s addr env).2 addr = more := by
  induction l generalizing s env with
  | nil =>
    cases env with
    | nil => simpa [getClients] using hi
    | cons e rest => simp at henv
  | cons c l ih =>
    cases env with
    | nil => simp at henv
    | cons e rest =>
      obtain ⟨fresh, st⟩ := e
      have hfind := idle_cons s addr c (l ++ more) (by simpa using hi)
      have hg := GetClient_reuse s addr fresh st c (l ++ more) hfind
      have hrec := ih (GetClient s addr fresh st).pool rest (by simpa using henv)
        (by rw [hg]; simp [idle, find_assign_self])
      simp only [getClients, List.map_cons]
      rw [hrec.1, hrec.2.1, hrec.2.2.1, hrec.2.2.2]
      rw [hg]
      simp

/-! ## Checkout/release runs on one peer -/

theorem RunInv_start (addr : HostPort) (m n : Int) : RunInv addr (RunState.start m n) := by
  constructor <;> simp [RunState.start, BackendClientCache.new, find, idle, connectionsCreated]

theorem RunInv_get (addr : HostPort) (rs : RunState) (fresh : Handle)
    (hinv : RunInv addr rs) :
    ∀ rs1, step addr rs (PoolOp.get fresh) = Except.ok rs1 → RunInv addr rs1 := by
  intro rs1 h
  simp only [step, Except.ok.injEq] at h
  subst h
  cases hi : idle rs.pool addr with
  | nil =>
    rw [GetClient_create_ok rs.pool addr fresh hi]
    have hidle : idle { rs.pool with
        client_cache_ := withEntry rs.pool.client_cache_ addr
        calls := rs.pool.calls ++ [Call.Open ⟨addr.1, addr.2, fresh⟩]
        client_map_ := assign rs.pool.client_map_ fresh ⟨addr.1, addr.2, fresh⟩ } addr = [] := by
      simp only [idle, find_withEntry]
      exact hi
    have hcount := hinv.count
    rw [hi] at hcount
    constructor
    · intro h hm
      simp only [Option.toList, List.singleton_append, List.mem_cons] at hm
      simp only [find_assign]
      split
      · rfl
      · rename_i hne
        rcases hm with hm | hm
        · exact absurd hm.symm hne
        · exact hinv.known h hm
    · intro h c hc
      simp only [find_assign] at hc
      by_cases hf : fresh = h
      · simp [hf] at hc
        subst hc
        exact ⟨rfl, rfl, by simp [find_withEntry_self]⟩
      · simp [hf] at hc
        obtain ⟨h1, h2, h3⟩ := hinv.peer h c hc
        exact ⟨h1, h2, find_withEntry_isSome _ _ _ h3⟩
    · intro c hc
      rw [hidle] at hc
      simp at hc
    · rw [hidle]
      simp only [connectionsCreated] at hcount ⊢
      simp [List.countP_append, hcount]
    · simp only [connectionsCreated] at hcount ⊢
      simp [List.countP_append, hcount]
    · have hreg := hinv.registered
      have hlen := assign_length_le rs.pool.client_map_ fresh ⟨addr.1, addr.2, fresh⟩
      simp only [connectionsCreated] at hreg ⊢
      simp [List.countP_append]
      omega
  | cons front rest =>
    rw [GetClient_reuse rs.pool addr fresh Status.OK front rest (idle_cons _ _ _ _ hi)]
    have hidle : idle { rs.pool with
        client_cache_ := assign rs.pool.client_cache_ addr rest } addr = rest := by
      simp [idle, find_assign_self]
    have hcount := hinv.count
    rw [hi] at hcount
    have hbound := hinv.bound
    constructor
    · intro h hm
      simp only [Option.toList, List.singleton_append, List.mem_cons] at hm
      rcases hm with hm | hm
      · subst hm
        exact hinv.idleKnown front (by simp [hi])
      · exact hinv.known h hm
    · intro h c hc
      obtain ⟨h1, h2, _⟩ := hinv.peer h c hc
      exact ⟨h1, h2, by simp [find_assign_self]⟩
    · intro c hc
      rw [hidle] at hc
      exact hinv.idleKnown c (by simp [hi, hc])
    · rw [hidle]
      simp only [connectionsCreated] at hcount ⊢
      simp [hcount]
      omega
    · simp only [connectionsCreated] at hbound ⊢
      simp
      omega
    · exact hinv.registered

theorem RunInv_release (addr : HostPort) (rs : RunState) (client : Handle)
    (hinv : RunInv addr rs) :
    step addr rs (PoolOp.release client) ≠ Except.error RunError.dcheck ∧
    ∀ rs1, step addr rs (PoolOp.release client) = Except.ok rs1 → RunInv addr rs1 := by
  by_cases hm : client ∈ rs.outstanding
  · have hk := hinv.known client hm
    obtain ⟨c, hc⟩ := Option.isSome_iff_exists.mp hk
    obtain ⟨hif, ha, hkey⟩ := hinv.peer client c hc
    have hkey2 : (find rs.pool.client_cache_ (c.ipaddress, c.port)).isSome := by
      rw [ha]
      exact hkey
    have hrel := ReleaseClient_some rs.pool client c hc hkey2
    rw [ha] at hrel
    simp only [step, hm, if_true, hrel]
    refine ⟨by simp, ?_⟩
    intro rs1 h
    simp only [Except.ok.injEq] at h
    subst h
    have hidle : idle { rs.pool with
        client_cache_ := assign rs.pool.client_cache_ addr (idle rs.pool addr ++ [c]) } addr
        = idle rs.pool addr ++ [c] := by
      simp [idle, find_assign_self]
    have hcount := hinv.count
    have hbound := hinv.bound
    have hlen := List.length_erase_of_mem hm
    have hpos : 0 < rs.outstanding.length := List.length_pos_of_mem hm
    constructor
    · intro h hm2
      exact hinv.known h (List.mem_of_mem_erase hm2)
    · intro h c2 hc2
      obtain ⟨h1, h2, _⟩ := hinv.peer h c2 hc2
      exact ⟨h1, h2, by simp [find_assign_self]⟩
    · intro c2 hc2
      rw [hidle] at hc2
      simp only [List.mem_append, List.mem_singleton] at hc2
      rcases hc2 with hc2 | hc2
      · exact hinv.idleKnown c2 hc2
      · subst hc2
        simp only [hif]
        exact hk
    · rw [hidle]
      simp only [connectionsCreated] at hcount ⊢
      simp [hcount, hlen]
      omega
    · exact hbound
    · exact hinv.registered
  · simp [step, hm]

theorem run_inv (addr : HostPort) (ops : List PoolOp) (rs : RunState)
    (hinv : RunInv addr rs) :
    run addr rs ops ≠ Except.error RunError.dcheck ∧
    ∀ rs1, run addr rs ops = Except.ok rs1 → RunInv addr rs1 := by
  induction ops generalizing rs with
  | nil =>
    refine ⟨by simp [run], ?_⟩
    intro rs1 h
    simp only [run, Except.ok.injEq] at h
    subst h
    exact hinv
  | cons op rest ih =>
    cases op with
    | get fresh =>
      have hstep : step addr rs (PoolOp.get fresh) = Except.ok
          { pool := (GetClient rs.pool addr fresh Status.OK).pool
            outstanding := (GetClient rs.pool addr fresh Status.OK).client.toList ++
              rs.outstanding
            maxOutstanding := max rs.maxOutstanding
              ((GetClient rs.pool addr fresh Status.OK).client.toList ++
                rs.outstanding).length } := rfl
      have h1 := RunInv_get addr rs fresh hinv _ hstep
      simp only [run, hstep]
      exact ih _ h1
    | release client =>
      obtain ⟨h1, h2⟩ := RunInv_release addr rs client hinv
      cases hs : step addr rs (PoolOp.release client) with
      | error e =>
        simp only [run, hs]
        refine ⟨?_, by simp⟩
        intro he
        apply h1
        rw [hs, he]
      | ok rs1 =>
        simp only [run, hs]
        exact ih _ (h2 rs1 hs)

/-! ## `CloseConnections` and `TestShutdown` -/

theorem count_map_Close (c : BackendClient) (l : List BackendClient) :
    (l.map Call.Close).count (Call.Close c) = l.count c := by
  induction l with
  | nil => rfl
  | cons d rest ih =>
    by_cases h : d = c
    · simp [h, ih]
    · have h2 : ¬ Call.Close d = Call.Close c := by
        intro e
        exact h (Call.Close.inj e)
      simp [List.count_cons, h, ih]

theorem count_map_Close_Open (c : BackendClient) (l : List BackendClient) :
    (l.map Call.Close).count (Call.Open c) = 0 := by
  induction l with
  | nil => rfl
  | cons d rest ih => simp [List.count_cons, ih]

theorem callsOn_map_Close (c : BackendClient) (l : List BackendClient) (h : c ∉ l) :
    callsOn c (l.map Call.Close) = [] := by
  induction l with
  | nil => rfl
  | cons d rest ih =>
    have h1 : ¬ d = c := fun e => h (by simp [e])
    have h2 : c ∉ rest := fun e => h (List.mem_cons_of_mem d e)
    have h3 := ih h2
    unfold callsOn at h3 ⊢
    rw [List.map_cons, List.filter_cons_of_neg (by simpa [Call.target] using h1)]
    exact h3

theorem ReopenClient_close_error (s : BackendClientCache) (client : Handle)
    (c : BackendClient) (msg : String) (open_status : Status)
    (h : find s.client_map_ client = some c) :
    ReopenClient s client (Status.error msg) open_status =
      some (Status.error msg, { s with calls := s.calls ++ [Call.Close c] }) := by
  simp [ReopenClient, h]

theorem ReopenClient_close_ok (s : BackendClientCache) (client : Handle)
    (c : BackendClient) (open_status : Status)
    (h : find s.client_map_ client = some c) :
    ReopenClient s client Status.OK open_status =
      some (open_status, { s with calls := s.calls ++ [Call.Close c, Call.Open c] }) := by
  cases open_status <;> simp [ReopenClient, h]

/-! ## Operations as a whole -/

theorem GetClient_client_map (s : BackendClientCache) (hostport : HostPort)
    (fresh : Handle) (open_status : Status) (hf : find s.client_map_ fresh = none)
    (h : Handle) (c : BackendClient) (hc : find s.client_map_ h = some c) :
    find (GetClient s hostport fresh open_status).pool.client_map_ h = some c := by
  cases hi : idle s hostport with
  | cons front rest =>
    rw [GetClient_reuse s hostport fresh open_status front rest (idle_cons _ _ _ _ hi)]
    exact hc
  | nil =>
    cases open_status with
    | error msg =>
      rw [GetClient_create_error s hostport fresh msg hi]
      exact hc
    | OK =>
      rw [GetClient_create_ok s hostport fresh hi]
      have hne : fresh ≠ h := by
        intro e
        rw [e, hc] at hf
        simp at hf
      simp only [find_assign_ne _ _ _ _ hne]
      exact hc

theorem exec_client_map (s t : BackendClientCache) (op : CacheOp) (r : CacheResult)
    (he : exec s op = some (r, t)) (hf : op.freshFor s)
    (h : Handle) (c : BackendClient) (hc : find s.client_map_ h = some c) :
    find t.client_map_ h = some c := by
  cases op with
  | getClient hostport fresh open_status =>
    simp only [exec, Option.some.injEq, Prod.mk.injEq] at he
    rw [← he.2]
    exact GetClient_client_map s hostport fresh open_status hf h c hc
  | reopenClient client close_status open_status =>
    simp only [exec] at he
    cases hr : ReopenClient s client close_status open_status with
    | none => simp [hr] at he
    | some x =>
      obtain ⟨st, u⟩ := x
      simp only [hr, Option.some.injEq, Prod.mk.injEq] at he
      rw [← he.2, (ReopenClient_frame s u client close_status open_status st hr).2]
      exact hc
  | releaseClient client =>
    simp only [exec] at he
    cases hr : ReleaseClient s client with
    | none => simp [hr] at he
    | some u =>
      simp only [hr, Option.some.injEq, Prod.mk.injEq] at he
      obtain ⟨_, _, _, hu⟩ := ReleaseClient_eq s u client hr
      rw [← he.2, hu]
      exact hc
  | closeConnections hostport =>
    simp only [exec, Option.some.injEq, Prod.mk.injEq] at he
    rw [← he.2, CloseConnections_eq]
    exact hc
  | debugString =>
    simp only [exec, Option.some.injEq, Prod.mk.injEq] at he
    rw [← he.2]
    exact hc
  | testShutdown =>
    simp only [exec, Option.some.injEq, Prod.mk.injEq] at he
    rw [← he.2, TestShutdown_eq]
    exact hc

theorem GetClient_setLimits (s : BackendClientCache) (m n : Int) (hostport : HostPort)
    (fresh : Handle) (open_status : Status) :
    GetClient (setLimits s m n) hostport fresh open_status =
      { status := (GetClient s hostport fresh open_status).status
        client := (GetClient s hostport fresh open_status).client
        pool := setLimits (GetClient s hostport fresh open_status).pool m n } := by
  cases hi : idle s hostport with
  | cons front rest =>
    have h1 := idle_cons _ _ _ _ hi
    rw [GetClient_reuse s hostport fresh open_status front rest h1,
      GetClient_reuse (setLimits s m n) hostport fresh open_status front rest h1]
    rfl
  | nil =>
    have hi2 : idle (setLimits s m n) hostport = [] := hi
    cases open_status with
    | error msg =>
      rw [GetClient_create_error s hostport fresh msg hi,
        GetClient_create_error (setLimits s m n) hostport fresh msg hi2]
      rfl
    | OK =>
      rw [GetClient_create_ok s hostport fresh hi,
        GetClient_create_ok (setLimits s m n) hostport fresh hi2]
      rfl

theorem exec_setLimits (s : BackendClientCache) (m n : Int) (op : CacheOp) :
    exec (setLimits s m n) op = (exec s op).map (fun x => (x.1, setLimits x.2 m n)) := by
  cases op with
  | getClient hostport fresh open_status =>
    simp only [exec, GetClient_setLimits, Option.map_some']
  | reopenClient client close_status open_status =>
    simp only [exec]
    cases hc : find s.client_map_ client with
    | none =>
      have hc2 : find (setLimits s m n).client_map_ client = none := hc
      simp [ReopenClient, hc, hc2]
    | some c =>
      have hc2 : find (setLimits s m n).client_map_ client = some c := hc
      cases close_status with
      | OK =>
        rw [ReopenClient_close_ok s client c open_status hc,
          ReopenClient_close_ok (setLimits s m n) client c open_status hc2]
        rfl
      | error msg =>
        rw [ReopenClient_close_error s client c msg open_status hc,
          ReopenClient_close_error (setLimits s m n) client c msg open_status hc2]
        rfl
  | releaseClient client =>
    simp only [exec]
    cases hc : find s.client_map_ client with
    | none =>
      have hc2 : find (setLimits s m n).client_map_ client = none := hc
      simp [ReleaseClient, hc, hc2]
    | some c =>
      have hc2 : find (setLimits s m n).client_map_ client = some c := hc
      cases hk : find s.client_cache_ (c.ipaddress, c.port) with
      | none =>
        have hk2 : find (setLimits s m n).client_cache_ (c.ipaddress, c.port) = none := hk
        simp [ReleaseClient, hc, hc2, hk, hk2]
      | some l =>
        have hk2 : find (setLimits s m n).client_cache_ (c.ipaddress, c.port) = some l := hk
        simp [ReleaseClient, hc, hc2, hk, hk2, setLimits]
  | closeConnections hostport =>
    simp only [exec, CloseConnections_eq, Option.map_some']
    rfl
  | debugString =>
    simp only [exec, Option.map_some']
    rfl
  | testShutdown =>
    simp only [exec, TestShutdown_eq, Option.map_some']
    rfl

theorem execAll_setLimits (m n : Int) (ops : List CacheOp) (s : BackendClientCache) :
    execAll (setLimits s m n) ops =
      (execAll s ops).map (fun x => (x.1, setLimits x.2 m n)) := by
  induction ops generalizing s with
  | nil => rfl
  | cons op rest ih =>
    simp only [execAll, exec_setLimits]
    cases h1 : exec s op with
    | none => rfl
    | some x =>
      obtain ⟨r, t⟩ := x
      simp only [Option.map_some', ih]
      cases h2 : execAll t rest with
      | none => rfl
      | some y => rfl

/-! ## Idle lists and checked-out handles -/

theorem find_mem {K V : Type} [DecidableEq K] (m : List (K × V)) (k : K) (v : V)
    (h : find m k = some v) : (k, v) ∈ m := by
  induction m with
  | nil => simp [find] at h
  | cons e rest ih =>
    obtain ⟨k1, v1⟩ := e
    by_cases h1 : k1 = k
    · simp [find, h1] at h
      simp [h1, h]
    · simp [find, h1] at h
      exact List.mem_cons_of_mem _ (ih h)

theorem mem_assign {K V : Type} [DecidableEq K] (m : List (K × V)) (k : K) (v : V)
    (e : K × V) (h : e ∈ assign m k v) : e = (k, v) ∨ e ∈ m := by
  induction m with
  | nil =>
    simp [assign] at h
    exact Or.inl h
  | cons e1 rest ih =>
    obtain ⟨k1, v1⟩ := e1
    by_cases h1 : k1 = k
    · simp only [assign, h1, if_true, List.mem_cons] at h
      rcases h with h | h
      · exact Or.inl h
      · exact Or.inr (List.mem_cons_of_mem _ h)
    · simp only [assign, h1, if_false, List.mem_cons] at h
      rcases h with h | h
      · exact Or.inr (by simp [h])
      · rcases ih h with h2 | h2
        · exact Or.inl h2
        · exact Or.inr (List.mem_cons_of_mem _ h2)

theorem mem_withEntry (cache : List (HostPort × List BackendClient)) (hostport : HostPort)
    (e : HostPort × List BackendClient) (h : e ∈ withEntry cache hostport) :
    e ∈ cache ∨ e = (hostport, []) := by
  unfold withEntry at h
  cases h1 : find cache hostport with
  | some l =>
    simp only [h1] at h
    exact Or.inl h
  | none =>
    simp only [h1, List.mem_append, List.mem_singleton] at h
    exact h

theorem flatMap_withEntry (cache : List (HostPort × List BackendClient))
    (hostport : HostPort) :
    (withEntry cache hostport).flatMap Prod.snd = cache.flatMap Prod.snd := by
  unfold withEntry
  cases h1 : find cache hostport with
  | some l => rfl
  | none => simp [List.flatMap_append]

theorem flatMap_assign (m : List (HostPort × List BackendClient)) (k : HostPort)
    (l : List BackendClient) (h : find m k = some l) :
    ∃ A B, m.flatMap Prod.snd = A ++ l ++ B ∧
      ∀ v, (assign m k v).flatMap Prod.snd = A ++ v ++ B := by
  induction m with
  | nil => simp [find] at h
  | cons e rest ih =>
    obtain ⟨k1, v1⟩ := e
    by_cases h1 : k1 = k
    · simp [find, h1] at h
      subst h
      refine ⟨[], rest.flatMap Prod.snd, by simp, ?_⟩
      intro v
      simp [assign, h1]
    · simp [find, h1] at h
      obtain ⟨A, B, hA, hB⟩ := ih h
      refine ⟨v1 ++ A, B, by simp [hA], ?_⟩
      intro v
      simp [assign, h1, hB]

theorem nodup_remove (A l B : List BackendClient) (x : BackendClient)
    (h : (A ++ (x :: l) ++ B).Nodup) : (A ++ l ++ B).Nodup ∧ x ∉ A ++ l ++ B := by
  have h1 : A ++ (x :: l) ++ B = A ++ x :: (l ++ B) := by simp
  rw [h1, List.nodup_middle, List.nodup_cons] at h
  have h2 : A ++ l ++ B = A ++ (l ++ B) := by simp
  rw [h2]
  exact ⟨h.2, h.1⟩

theorem nodup_insert_end (A l B : List BackendClient) (c : BackendClient)
    (h : (A ++ l ++ B).Nodup) (hc : c ∉ A ++ l ++ B) : (A ++ (l ++ [c]) ++ B).Nodup := by
  have h1 : A ++ (l ++ [c]) ++ B = (A ++ l) ++ c :: B := by simp
  rw [h1, List.nodup_middle, List.nodup_cons]
  exact ⟨hc, h⟩

theorem idle_subset_allIdle (s : BackendClientCache) (p : HostPort) (c : BackendClient)
    (h : c ∈ idle s p) : c ∈ allIdle s := by
  unfold idle at h
  cases h1 : find s.client_cache_ p with
  | none => simp [h1] at h
  | some l =>
    simp only [h1, Option.getD_some] at h
    unfold allIdle
    rw [List.mem_flatMap]
    exact ⟨(p, l), find_mem _ _ _ h1, h⟩

theorem idle_sublist_allIdle (s : BackendClientCache) (p : HostPort) :
    (idle s p).Sublist (allIdle s) := by
  unfold idle
  cases h1 : find s.client_cache_ p with
  | none => simp
  | some l =>
    obtain ⟨A, B, hA, _⟩ := flatMap_assign s.client_cache_ p l h1
    unfold allIdle
    rw [hA]
    simp only [Option.getD_some]
    exact (List.sublist_append_right A l).trans (List.sublist_append_left (A ++ l) B)

theorem TrackInv_of_eq (s t : BackendClientCache) (out : List Handle)
    (h1 : t.client_cache_ = s.client_cache_) (h2 : t.client_map_ = s.client_map_)
    (inv : TrackInv s out) : TrackInv t out := by
  have hidle : ∀ p, idle t p = idle s p := by
    intro p
    simp only [idle, h1]
  have hall : allIdle t = allIdle s := by
    simp only [allIdle, h1]
  constructor
  · intro h c hc
    rw [h2] at hc
    rw [h1, hidle]
    exact inv.registered h c hc
  · rw [hall]
    exact inv.idleNodup
  · rw [h1]
    exact inv.ownPeer
  · rw [hall, h2]
    exact inv.idleKnown
  · rw [h2]
    exact inv.outKnown
  · exact inv.outNodup

theorem TrackInv_new (m n : Int) : TrackInv (BackendClientCache.new m n) [] := by
  constructor <;> simp [BackendClientCache.new, find, allIdle]

theorem TrackInv_reuse (s : BackendClientCache) (out : List Handle) (hostport : HostPort)
    (front : BackendClient) (rest : List BackendClient) (inv : TrackInv s out)
    (hfind : find s.client_cache_ hostport = some (front :: rest)) :
    TrackInv { s with client_cache_ := assign s.client_cache_ hostport rest }
      (front.iface :: out) := by
  obtain ⟨A, B, hA, hB⟩ := flatMap_assign s.client_cache_ hostport (front :: rest) hfind
  have hall : allIdle s = A ++ (front :: rest) ++ B := hA
  have hall2 : allIdle { s with client_cache_ := assign s.client_cache_ hostport rest } =
      A ++ rest ++ B := hB rest
  have hnd := inv.idleNodup
  rw [hall] at hnd
  obtain ⟨hnd2, hfront⟩ := nodup_remove A rest B front hnd
  have hfrontAll : front ∈ allIdle s := by
    rw [hall]
    simp
  obtain ⟨hfk, hfo⟩ := inv.idleKnown front hfrontAll
  have hsub : ∀ c, c ∈ A ++ rest ++ B → c ∈ allIdle s := by
    intro c hc
    rw [hall]
    simp only [List.mem_append, List.mem_cons] at hc ⊢
    tauto
  constructor
  · intro h c hc
    obtain ⟨h1, h2, h3⟩ := inv.registered h c hc
    refine ⟨h1, ?_, ?_⟩
    · show (find (assign s.client_cache_ hostport rest) (c.ipaddress, c.port)).isSome
      rw [find_assign]
      split
      · rfl
      · exact h2
    · rcases h3 with h3 | h3
      · exact Or.inl (List.mem_cons_of_mem _ h3)
      · by_cases hcf : c = front
        · left
          rw [← h1, hcf]
          exact List.mem_cons_self _ _
        · right
          show c ∈ (find (assign s.client_cache_ hostport rest) (c.ipaddress, c.port)).getD []
          rw [find_assign]
          by_cases hp : hostport = (c.ipaddress, c.port)
          · simp only [hp, if_true, Option.getD_some]
            rw [idle, ← hp, hfind] at h3
            simp only [Option.getD_some, List.mem_cons] at h3
            rcases h3 with h3 | h3
            · exact absurd h3 hcf
            · exact h3
          · simp only [hp, if_false]
            exact h3
  · rw [hall2]
    exact hnd2
  · intro e he c hc
    rcases mem_assign _ _ _ _ he with h1 | h1
    · rw [h1] at hc ⊢
      exact inv.ownPeer _ (find_mem _ _ _ hfind) c (List.mem_cons_of_mem _ hc)
    · exact inv.ownPeer e h1 c hc
  · intro c hc
    rw [hall2] at hc
    obtain ⟨h1, h2⟩ := inv.idleKnown c (hsub c hc)
    refine ⟨h1, ?_⟩
    intro hm
    rcases List.mem_cons.mp hm with h3 | h3
    · have h4 : some c = some front := by
        rw [← h1, ← hfk, h3]
      exact hfront (by
        rw [← Option.some.inj h4]
        exact hc)
    · exact h2 h3
  · intro h hm
    rcases List.mem_cons.mp hm with h3 | h3
    · show (find s.client_map_ h).isSome
      rw [h3, hfk]
      rfl
    · exact inv.outKnown h h3
  · exact List.nodup_cons.mpr ⟨hfo, inv.outNodup⟩

theorem TrackInv_create_error (s : BackendClientCache) (out : List Handle)
    (hostport : HostPort) (calls : List Call) (inv : TrackInv s out) :
    TrackInv { s with client_cache_ := withEntry s.client_cache_ hostport, calls := calls }
      out := by
  have hall : allIdle { s with
      client_cache_ := withEntry s.client_cache_ hostport, calls := calls } = allIdle s :=
    flatMap_withEntry s.client_cache_ hostport
  constructor
  · intro h c hc
    obtain ⟨h1, h2, h3⟩ := inv.registered h c hc
    refine ⟨h1, find_withEntry_isSome _ _ _ h2, ?_⟩
    rcases h3 with h3 | h3
    · exact Or.inl h3
    · right
      show c ∈ (find (withEntry s.client_cache_ hostport) (c.ipaddress, c.port)).getD []
      rw [find_withEntry]
      exact h3
  · rw [hall]
    exact inv.idleNodup
  · intro e he c hc
    rcases mem_withEntry _ _ _ he with h1 | h1
    · exact inv.ownPeer e h1 c hc
    · rw [h1] at hc
      simp at hc
  · rw [hall]
    exact inv.idleKnown
  · exact inv.outKnown
  · exact inv.outNodup

theorem TrackInv_create_ok (s : BackendClientCache) (out : List Handle)
    (hostport : HostPort) (fresh : Handle) (calls : List Call) (inv : TrackInv s out)
    (hf : find s.client_map_ fresh = none) :
    TrackInv { s with
        client_cache_ := withEntry s.client_cache_ hostport
        calls := calls
        client_map_ := assign s.client_map_ fresh ⟨hostport.1, hostport.2, fresh⟩ }
      (fresh :: out) := by
  have hall : allIdle { s with
      client_cache_ := withEntry s.client_cache_ hostport
      calls := calls
      client_map_ := assign s.client_map_ fresh ⟨hostport.1, hostport.2, fresh⟩ } =
      allIdle s :=
    flatMap_withEntry s.client_cache_ hostport
  have hfo : fresh ∉ out := by
    intro hm
    have h1 := inv.outKnown fresh hm
    rw [hf] at h1
    simp at h1
  constructor
  · intro h c hc
    have hc2 : find (assign s.client_map_ fresh ⟨hostport.1, hostport.2, fresh⟩) h = some c :=
      hc
    rw [find_assign] at hc2
    by_cases hfh : fresh = h
    · simp only [hfh, if_true, Option.some.injEq] at hc2
      subst hc2
      refine ⟨rfl, ?_, Or.inl (by rw [hfh]; exact List.mem_cons_self _ _)⟩
      show (find (withEntry s.client_cache_ hostport) hostport).isSome
      rw [find_withEntry_self]
      rfl
    · simp only [hfh, if_false] at hc2
      obtain ⟨h1, h2, h3⟩ := inv.registered h c hc2
      refine ⟨h1, find_withEntry_isSome _ _ _ h2, ?_⟩
      rcases h3 with h3 | h3
      · exact Or.inl (List.mem_cons_of_mem _ h3)
      · right
        show c ∈ (find (withEntry s.client_cache_ hostport) (c.ipaddress, c.port)).getD []
        rw [find_withEntry]
        exact h3
  · rw [hall]
    exact inv.idleNodup
  · intro e he c hc
    rcases mem_withEntry _ _ _ he with h1 | h1
    · exact inv.ownPeer e h1 c hc
    · rw [h1] at hc
      simp at hc
  · intro c hc
    rw [hall] at hc
    obtain ⟨h1, h2⟩ := inv.idleKnown c hc
    have hne : fresh ≠ c.iface := by
      intro e
      rw [e, h1] at hf
      simp at hf
    refine ⟨?_, ?_⟩
    · show find (assign s.client_map_ fresh ⟨hostport.1, hostport.2, fresh⟩) c.iface = some c
      rw [find_assign_ne _ _ _ _ hne]
      exact h1
    · intro hm
      rcases List.mem_cons.mp hm with h3 | h3
      · exact hne h3.symm
      · exact h2 h3
  · intro h hm
    show (find (assign s.client_map_ fresh ⟨hostport.1, hostport.2, fresh⟩) h).isSome
    rw [find_assign]
    split
    · rfl
    · rcases List.mem_cons.mp hm with h3 | h3
      · rename_i hne
        exact absurd h3.symm hne
      · exact inv.outKnown h h3
  · exact List.nodup_cons.mpr ⟨hfo, inv.outNodup⟩

theorem TrackInv_GetClient (s : BackendClientCache) (out : List Handle)
    (hostport : HostPort) (fresh : Handle) (open_status : Status) (inv : TrackInv s out)
    (hf : find s.client_map_ fresh = none) :
    TrackInv (GetClient s hostport fresh open_status).pool
      ((GetClient s hostport fresh open_status).client.toList ++ out) := by
  cases hi : idle s hostport with
  | cons front rest =>
    have hfind := idle_cons _ _ _ _ hi
    rw [GetClient_reuse s hostport fresh open_status front rest hfind]
    exact TrackInv_reuse s out hostport front rest inv hfind
  | nil =>
    cases open_status with
    | error msg =>
      rw [GetClient_create_error s hostport fresh msg hi]
      exact TrackInv_create_error s out hostport _ inv
    | OK =>
      rw [GetClient_create_ok s hostport fresh hi]
      exact TrackInv_create_ok s out hostport fresh _ inv hf

theorem TrackInv_ReleaseClient (s t : BackendClientCache) (out : List Handle)
    (client : Handle) (inv : TrackInv s out) (hm : client ∈ out)
    (hrel : ReleaseClient s client = some t) : TrackInv t (out.erase client) := by
  obtain ⟨c, hc, hkey, rfl⟩ := ReleaseClient_eq s t client hrel
  obtain ⟨hif, _, _⟩ := inv.registered client c hc
  have hfind : find s.client_cache_ (c.ipaddress, c.port) =
      some (idle s (c.ipaddress, c.port)) := by
    unfold idle
    cases h1 : find s.client_cache_ (c.ipaddress, c.port) with
    | none => simp [h1] at hkey
    | some l => rfl
  obtain ⟨A, B, hA, hB⟩ := flatMap_assign s.client_cache_ (c.ipaddress, c.port) _ hfind
  have hall : allIdle s = A ++ idle s (c.ipaddress, c.port) ++ B := hA
  have hall2 : allIdle { s with
      client_cache_ := assign s.client_cache_ (c.ipaddress, c.port)
        (idle s (c.ipaddress, c.port) ++ [c]) } =
      A ++ (idle s (c.ipaddress, c.port) ++ [c]) ++ B := hB _
  have hcAll : c ∉ allIdle s := by
    intro h1
    have h2 := (inv.idleKnown c h1).2
    rw [hif] at h2
    exact h2 hm
  have hnd := inv.idleNodup
  rw [hall] at hnd hcAll
  have hnd2 := nodup_insert_end A _ B c hnd hcAll
  have hsplit : ∀ d, d ∈ A ++ (idle s (c.ipaddress, c.port) ++ [c]) ++ B →
      d ∈ allIdle s ∨ d = c := by
    intro d hd
    rw [hall]
    simp only [List.mem_append, List.mem_singleton] at hd ⊢
    tauto
  constructor
  · intro h c2 hc2
    obtain ⟨h1, h2, h3⟩ := inv.registered h c2 hc2
    refine ⟨h1, ?_, ?_⟩
    · show (find (assign s.client_cache_ (c.ipaddress, c.port)
        (idle s (c.ipaddress, c.port) ++ [c])) (c2.ipaddress, c2.port)).isSome
      rw [find_assign]
      split
      · rfl
      · exact h2
    · have hgoal : ∀ (P : Prop), (c2 ∈ (find (assign s.client_cache_ (c.ipaddress, c.port)
          (idle s (c.ipaddress, c.port) ++ [c])) (c2.ipaddress, c2.port)).getD [] → P) →
          (c2 = c ∨ c2 ∈ idle s (c2.ipaddress, c2.port)) → P := by
        intro P hP hor
        apply hP
        rw [find_assign]
        by_cases hp : (c.ipaddress, c.port) = (c2.ipaddress, c2.port)
        · simp only [hp, if_true, Option.getD_some, List.mem_append, List.mem_singleton]
          rcases hor with h4 | h4
          · exact Or.inr h4
          · exact Or.inl h4
        · simp only [hp, if_false]
          rcases hor with h4 | h4
          · rw [h4] at hp
            exact absurd rfl hp
          · exact h4
      rcases h3 with h3 | h3
      · by_cases hh : h = client
        · right
          have hcc : c2 = c := by
            rw [hh, hc] at hc2
            exact (Option.some.inj hc2).symm
          exact hgoal _ id (Or.inl hcc)
        · exact Or.inl ((List.mem_erase_of_ne hh).mpr h3)
      · right
        exact hgoal _ id (Or.inr h3)
  · rw [hall2]
    exact hnd2
  · intro e he d hd
    rcases mem_assign _ _ _ _ he with h1 | h1
    · rw [h1] at hd ⊢
      rcases List.mem_append.mp hd with h2 | h2
      · exact inv.ownPeer _ (find_mem _ _ _ hfind) d h2
      · rw [List.mem_singleton.mp h2]
    · exact inv.ownPeer e h1 d hd
  · intro d hd
    rw [hall2] at hd
    rcases hsplit d hd with h1 | h1
    · obtain ⟨h2, h3⟩ := inv.idleKnown d h1
      exact ⟨h2, fun h4 => h3 (List.mem_of_mem_erase h4)⟩
    · rw [h1, hif]
      refine ⟨hc, ?_⟩
      intro h4
      exact ((List.Nodup.mem_erase_iff inv.outNodup).mp h4).1 rfl
  · intro h h1
    exact inv.outKnown h (List.mem_of_mem_erase h1)
  · exact inv.outNodup.erase client

theorem Tracked_inv (s : BackendClientCache) (out : List Handle) (h : Tracked s out) :
    TrackInv s out := by
  induction h with
  | init m n => exact TrackInv_new m n
  | getClient s out hostport fresh open_status _ hf ih =>
    exact TrackInv_GetClient s out hostport fresh open_status ih hf
  | releaseClient s t out client _ hm hrel ih =>
    exact TrackInv_ReleaseClient s t out client ih hm hrel
  | reopenClient s t out client close_status open_status st _ hre ih =>
    obtain ⟨h1, h2⟩ := ReopenClient_frame s t client close_status open_status st hre
    exact TrackInv_of_eq s t out h1 h2 ih
  | closeConnections s out hostport _ ih =>
    exact TrackInv_of_eq s _ out (by rw [CloseConnections_eq]) (by rw [CloseConnections_eq]) ih
  | testShutdown s out _ ih =>
    exact TrackInv_of_eq s _ out (by rw [TestShutdown_eq]) (by rw [TestShutdown_eq]) ih

theorem TrackInv_idle_peer (s : BackendClientCache) (out : List Handle)
    (inv : TrackInv s out) (p : HostPort) (c : BackendClient) (h : c ∈ idle s p) :
    (c.ipaddress, c.port) = p := by
  unfold idle at h
  cases h1 : find s.client_cache_ p with
  | none => simp [h1] at h
  | some l =>
    simp only [h1, Option.getD_some] at h
    exact inv.ownPeer (p, l) (find_mem _ _ _ h1) c h

theorem count_one_of_nodup_mem (l : List BackendClient) (c : BackendClient)
    (hn : l.Nodup) (hm : c ∈ l) : l.count c = 1 := by
  have h1 := List.nodup_iff_count_le_one.mp hn c
  have h2 := List.count_pos_iff.mpr hm
  omega

/-! ## The loop of `HdfsByteStream::Read` -/

theorem read_step_arith (req n r : Int) (h0 : 0 ≤ n) (hlt : n < req)
    (hJ : n = 0 ∨ (req % 4294967296 < 2147483648 ∧ n ≤ req % 4294967296))
    (hr : 0 < r) (hle : r ≤ wrapInt32 (req - n)) :
    wrapInt32 (n + r) = n + r ∧ n + r ≤ req ∧
      (req % 4294967296 < 2147483648 ∧ n + r ≤ req % 4294967296) := by
  unfold wrapInt32 at hle ⊢
  omega

theorem ReadLoop_post (hdfsRead : Nat → Int → Int) (req : Int) (hv : ValidReads hdfsRead)
    (fuel : Nat) :
    ∀ (i : Nat) (n : Int) (pos : List Int), 0 ≤ n → n ≤ req →
      (n = 0 ∨ (req % 4294967296 < 2147483648 ∧ n ≤ req % 4294967296)) →
      (∀ x ∈ pos, 0 < x) → pos.sum = n → req - n ≤ (fuel : Int) →
      ∃ r, ReadLoop hdfsRead req fuel i n pos = some r ∧ ReadLoopPost req r := by
  induction fuel with
  | zero =>
    intro i n pos h0 hle _ hpos hsum hfuel
    have hn : ¬ n < req := by omega
    refine ⟨⟨ReadEnd.full, n, pos⟩, by simp [ReadLoop, hn], pos, hpos, hsum, h0, hle, ?_, ?_, ?_⟩
    · intro _
      exact ⟨rfl, by simp only; omega⟩
    · intro h
      simp at h
    · intro h
      simp at h
  | succ fuel ih =>
    intro i n pos h0 hle hJ hpos hsum hfuel
    by_cases hlt : n < req
    · rcases hv i (wrapInt32 (req - n)) with hr | hr | hr
      · refine ⟨⟨ReadEnd.failed, n, pos ++ [-1]⟩, by simp [ReadLoop, hlt, hr], pos, hpos, hsum,
          h0, hle, ?_, ?_, ?_⟩
        · intro h
          simp at h
        · intro h
          simp at h
        · intro _
          rfl
      · refine ⟨⟨ReadEnd.eof, n, pos ++ [0]⟩, by simp [ReadLoop, hlt, hr], pos, hpos, hsum,
          h0, hle, ?_, ?_, ?_⟩
        · intro h
          simp at h
        · intro _
          rfl
        · intro h
          simp at h
      · obtain ⟨hr0, hrle⟩ := hr
        obtain ⟨hw, hle2, hJ2⟩ :=
          read_step_arith req n (hdfsRead i (wrapInt32 (req - n))) h0 hlt hJ hr0 hrle
        have hne0 : ¬ hdfsRead i (wrapInt32 (req - n)) = 0 := by omega
        have hne1 : ¬ hdfsRead i (wrapInt32 (req - n)) = -1 := by omega
        have hrec := ih (i + 1) (n + hdfsRead i (wrapInt32 (req - n)))
          (pos ++ [hdfsRead i (wrapInt32 (req - n))]) (by omega) hle2 (Or.inr hJ2)
          (by
            intro x hx
            rcases List.mem_append.mp hx with h1 | h1
            · exact hpos x h1
            · rw [List.mem_singleton.mp h1]
              exact hr0)
          (by simp [hsum])
          (by push_cast at hfuel; omega)
        obtain ⟨r, h1, h2⟩ := hrec
        refine ⟨r, ?_, h2⟩
        simp only [ReadLoop, hlt, if_true, hne0, hne1, if_false, hw]
        exact h1
    · have hn : n = req := by omega
      refine ⟨⟨ReadEnd.full, n, pos⟩, by simp [ReadLoop, hlt], pos, hpos, hsum, h0, hle,
        ?_, ?_, ?_⟩
      · intro _
        exact ⟨rfl, hn⟩
      · intro h
        simp at h
      · intro h
        simp at h

theorem ReadLoop_start (hdfsRead : Nat → Int → Int) (req : Int) (fuel : Nat)
    (hv : ValidReads hdfsRead) (h0 : 0 ≤ req) (hfuel : req ≤ (fuel : Int)) :
    ∃ r, ReadLoop hdfsRead req fuel 0 0 [] = some r ∧ ReadLoopPost req r :=
  ReadLoop_post hdfsRead req hv fuel 0 0 [] (le_refl 0) h0 (Or.inl rfl)
    (by simp) (by simp) (by omega)

theorem positiveSum_of_pos (pos : List Int) (h : ∀ x ∈ pos, 0 < x) :
    positiveSum pos = pos.sum := by
  unfold positiveSum
  rw [List.filter_eq_self.mpr]
  intro x hx
  simpa using h x hx

theorem positiveSum_append_nonpos (pos : List Int) (y : Int) (h : ∀ x ∈ pos, 0 < x)
    (hy : y ≤ 0) : positiveSum (pos ++ [y]) = pos.sum := by
  have h1 : ¬ 0 < y := by omega
  unfold positiveSum
  rw [List.filter_append, List.filter_eq_self.mpr (by
    intro x hx
    simpa using h x hx)]
  simp [List.filter_cons, h1]

theorem wrapInt64_of_range (x : Int) (h1 : -9223372036854775808 ≤ x)
    (h2 : x < 9223372036854775808) : wrapInt64 x = x := by
  unfold wrapInt64
  omega

theorem ValidReads_tenBytes : ValidReads tenBytes := by
  intro i len
  simp only [tenBytes, min_def, max_def]
  split_ifs <;> omega

/-! ## The answers of `hdfsRead` and the result of `Read` -/

theorem ReadLoop_trace (hdfsRead : Nat → Int → Int) (req : Int) (fuel : Nat) :
    ∀ (i : Nat) (n : Int) (pos : List Int) (r : ReadLoopResult),
      ReadLoop hdfsRead req fuel i n pos = some r →
      ∃ tr, r.results = pos ++ tr ∧ IsTrace hdfsRead req i n tr := by
  induction fuel with
  | zero =>
    intro i n pos r h
    by_cases hlt : n < req
    · simp [ReadLoop, hlt] at h
    · simp only [ReadLoop, hlt, if_false, Option.some.injEq] at h
      exact ⟨[], by simp [← h], trivial⟩
  | succ fuel ih =>
    intro i n pos r h
    by_cases hlt : n < req
    · by_cases h0 : hdfsRead i (wrapInt32 (req - n)) = 0
      · simp only [ReadLoop, hlt, if_true, h0, Option.some.injEq] at h
        exact ⟨[0], by simp [← h], ⟨h0, trivial⟩⟩
      · by_cases h1 : hdfsRead i (wrapInt32 (req - n)) = -1
        · simp [ReadLoop, hlt, h1] at h
          exact ⟨[-1], by simp [← h], ⟨h1, trivial⟩⟩
        · simp only [ReadLoop, hlt, if_true, h0, h1, if_false] at h
          obtain ⟨tr, ht1, ht2⟩ := ih _ _ _ r h
          exact ⟨hdfsRead i (wrapInt32 (req - n)) :: tr, by simp [ht1], ⟨rfl, ht2⟩⟩
    · simp only [ReadLoop, hlt, if_false, Option.some.injEq] at h
      exact ⟨[], by simp [← h], trivial⟩

theorem Read_trace (s : HdfsByteStream) (app : String → String → String)
    (hdfsRead : Nat → Int → Int) (req : Int) (fuel : Nat) (r : ReadResult)
    (h : Read s app hdfsRead req fuel = Except.ok r) :
    IsTrace hdfsRead req 0 0 r.results := by
  unfold Read at h
  by_cases hd : req < 0
  · simp [hd] at h
  · simp only [hd, if_false] at h
    cases hloop : ReadLoop hdfsRead req fuel 0 0 [] with
    | none => simp [hloop] at h
    | some r0 =>
      obtain ⟨tr, ht1, ht2⟩ := ReadLoop_trace hdfsRead req fuel 0 0 [] r0 hloop
      simp only [List.nil_append] at ht1
      simp only [hloop] at h
      obtain ⟨ending, n, results⟩ := r0
      simp only at ht1
      cases ending <;> simp only [Except.ok.injEq] at h <;> rw [← h] <;>
        simp only [ht1] <;> exact ht2

theorem Answers_pos (hdfsRead : Nat → Int → Int) (req : Int) (counts : List Int) :
    ∀ (i : Nat) (n : Int), Answers hdfsRead req i n counts → ∀ x ∈ counts, 0 < x := by
  induction counts with
  | nil =>
    intro i n _ x hx
    simp at hx
  | cons r rest ih =>
    intro i n ha x hx
    obtain ⟨h1, _, _, h4⟩ := ha
    rcases List.mem_cons.mp hx with h | h
    · rw [h]
      exact h1
    · exact ih _ _ h4 x h

theorem ReadLoop_answers (hdfsRead : Nat → Int → Int) (req : Int) (counts : List Int) :
    ∀ (fuel i : Nat) (n : Int) (pos : List Int), 0 ≤ n → n ≤ req →
      (n = 0 ∨ (req % 4294967296 < 2147483648 ∧ n ≤ req % 4294967296)) →
      req - n ≤ (fuel : Int) → Answers hdfsRead req i n counts →
      n + counts.sum ≤ req ∧
      (n + counts.sum = req →
        ReadLoop hdfsRead req fuel i n pos = some ⟨ReadEnd.full, req, pos ++ counts⟩) ∧
      (n + counts.sum < req →
        hdfsRead (i + counts.length) (wrapInt32 (req - (n + counts.sum))) = 0 →
        ReadLoop hdfsRead req fuel i n pos =
          some ⟨ReadEnd.eof, n + counts.sum, pos ++ counts ++ [0]⟩) ∧
      (n + counts.sum < req →
        hdfsRead (i + counts.length) (wrapInt32 (req - (n + counts.sum))) = -1 →
        ReadLoop hdfsRead req fuel i n pos =
          some ⟨ReadEnd.failed, n + counts.sum, pos ++ counts ++ [-1]⟩) := by
  induction counts with
  | nil =>
    intro fuel i n pos h0 hle _ hfuel _
    simp only [List.sum_nil, add_zero, List.length_nil, List.append_nil]
    refine ⟨hle, ?_, ?_, ?_⟩
    · intro hn
      have hlt : ¬ n < req := by omega
      cases fuel <;> simp [ReadLoop, hlt, hn]
    · intro hlt hx
      cases fuel with
      | zero =>
        simp at hfuel
        omega
      | succ f => simp [ReadLoop, hlt, hx]
    · intro hlt hx
      cases fuel with
      | zero =>
        simp at hfuel
        omega
      | succ f => simp [ReadLoop, hlt, hx]
  | cons r rest ih =>
    intro fuel i n pos h0 hle hJ hfuel ha
    obtain ⟨hr0, hrle, hans, hrest⟩ := ha
    have hlt : n < req := by
      by_contra hc
      have hn : n = req := by omega
      rw [hn] at hrle
      unfold wrapInt32 at hrle
      omega
    obtain ⟨hw, hle2, hJ2⟩ := read_step_arith req n r h0 hlt hJ hr0 hrle
    rw [hw] at hrest
    cases fuel with
    | zero =>
      simp at hfuel
      omega
    | succ f =>
      have hne0 : ¬ r = 0 := by omega
      have hne1 : ¬ r = -1 := by omega
      have hstep : ReadLoop hdfsRead req (f + 1) i n pos =
          ReadLoop hdfsRead req f (i + 1) (n + r) (pos ++ [r]) := by
        simp only [ReadLoop, hlt, if_true, hans, hne0, hne1, if_false, hw]
      obtain ⟨g1, g2, g3, g4⟩ := ih f (i + 1) (n + r) (pos ++ [r]) (by omega) hle2
        (Or.inr hJ2) (by push_cast at hfuel; omega) hrest
      have hsum : n + (r :: rest).sum = n + r + rest.sum := by
        rw [List.sum_cons]
        omega
      have hlen : i + (r :: rest).length = i + 1 + rest.length := by
        rw [List.length_cons]
        omega
      have happ : pos ++ (r :: rest) = pos ++ [r] ++ rest := by simp
      rw [hsum, hlen, happ, hstep]
      exact ⟨g1, g2, g3, g4⟩

theorem answers_exist (hdfsRead : Nat → Int → Int) (req : Int) (hv : ValidReads hdfsRead)
    (fuel : Nat) :
    ∀ (i : Nat) (n : Int), 0 ≤ n → n ≤ req →
      (n = 0 ∨ (req % 4294967296 < 2147483648 ∧ n ≤ req % 4294967296)) →
      req - n ≤ (fuel : Int) →
      ∃ counts, Answers hdfsRead req i n counts ∧
        (n + counts.sum = req ∨
          (n + counts.sum < req ∧
            (hdfsRead (i + counts.length) (wrapInt32 (req - (n + counts.sum))) = 0 ∨
              hdfsRead (i + counts.length) (wrapInt32 (req - (n + counts.sum))) = -1))) := by
  induction fuel with
  | zero =>
    intro i n h0 hle _ hfuel
    refine ⟨[], trivial, Or.inl ?_⟩
    simp at hfuel ⊢
    omega
  | succ fuel ih =>
    intro i n h0 hle hJ hfuel
    by_cases hlt : n < req
    · rcases hv i (wrapInt32 (req - n)) with hr | hr | hr
      · exact ⟨[], trivial, Or.inr ⟨by simpa using hlt, Or.inr (by simpa using hr)⟩⟩
      · exact ⟨[], trivial, Or.inr ⟨by simpa using hlt, Or.inl (by simpa using hr)⟩⟩
      · obtain ⟨hr0, hrle⟩ := hr
        obtain ⟨hw, hle2, hJ2⟩ :=
          read_step_arith req n (hdfsRead i (wrapInt32 (req - n))) h0 hlt hJ hr0 hrle
        obtain ⟨counts, hc1, hc2⟩ := ih (i + 1) (n + hdfsRead i (wrapInt32 (req - n)))
          (by omega) hle2 (Or.inr hJ2) (by push_cast at hfuel; omega)
        refine ⟨hdfsRead i (wrapInt32 (req - n)) :: counts, ⟨hr0, hrle, rfl, ?_⟩, ?_⟩
        · rw [hw]
          exact hc1
        · have hsum : n + (hdfsRead i (wrapInt32 (req - n)) :: counts).sum =
              n + hdfsRead i (wrapInt32 (req - n)) + counts.sum := by
            rw [List.sum_cons]
            omega
          have hlen : i + (hdfsRead i (wrapInt32 (req - n)) :: counts).length =
              i + 1 + counts.length := by
            rw [List.length_cons]
            omega
          rw [hsum, hlen]
          exact hc2
    · refine ⟨[], trivial, Or.inl ?_⟩
      simp
      omega

theorem Read_full (s : HdfsByteStream) (app : String → String → String)
    (hdfsRead : Nat → Int → Int) (req : Int) (fuel : Nat) (n : Int) (results : List Int)
    (h0 : 0 ≤ req)
    (h : ReadLoop hdfsRead req fuel 0 0 [] = some ⟨ReadEnd.full, n, results⟩) :
    Read s app hdfsRead req fuel =
      Except.ok ⟨Status.OK, some n, s.afterFullRead n, results⟩ := by
  have hd : ¬ req < 0 := by omega
  simp only [Read, hd, if_false, h]
  rfl

theorem Read_eof (s : HdfsByteStream) (app : String → String → String)
    (hdfsRead : Nat → Int → Int) (req : Int) (fuel : Nat) (n : Int) (results : List Int)
    (h0 : 0 ≤ req)
    (h : ReadLoop hdfsRead req fuel 0 0 [] = some ⟨ReadEnd.eof, n, results⟩) :
    Read s app hdfsRead req fuel = Except.ok ⟨Status.OK, some n, s, results⟩ := by
  have hd : ¬ req < 0 := by omega
  simp only [Read, hd, if_false, h]

theorem Read_failed (s : HdfsByteStream) (app : String → String → String)
    (hdfsRead : Nat → Int → Int) (req : Int) (fuel : Nat) (n : Int) (results : List Int)
    (h0 : 0 ≤ req)
    (h : ReadLoop hdfsRead req fuel 0 0 [] = some ⟨ReadEnd.failed, n, results⟩) :
    Read s app hdfsRead req fuel =
      Except.ok ⟨Status.error (app "Error reading from HDFS file: " s.location_), none, s,
        results⟩ := by
  have hd : ¬ req < 0 := by omega
  simp only [Read, hd, if_false, h]

/-! ## Checkout, release and reuse -/

/-- C1: from an empty pool, with every `Open` succeeding, `GetClient(("h1",100))`
returns `id1`, a second one returns `id2 ≠ id1` (the address `new` hands out is
not that of a registered connection), and after `ReleaseClient(id1)` a third
`GetClient(("h1",100))` returns `id1` without creating a connection:
`client_map_` holds exactly the entries of `id1` and `id2` and no further
`Open` call is made. -/
theorem C1_checkout_release_reuse (m n : Int) (id1 id2 other : Handle)
    (hfresh : find (GetClient (BackendClientCache.new m n) ("h1", 100) id1
      Status.OK).pool.client_map_ id2 = none) :
    let r1 := GetClient (BackendClientCache.new m n) ("h1", 100) id1 Status.OK
    let r2 := GetClient r1.pool ("h1", 100) id2 Status.OK
    r1.status = Status.OK ∧ r1.client = some id1 ∧
    r2.status = Status.OK ∧ r2.client = some id2 ∧ id2 ≠ id1 ∧
    ∃ p3, ReleaseClient r2.pool id1 = some p3 ∧
      (GetClient p3 ("h1", 100) other Status.OK).status = Status.OK ∧
      (GetClient p3 ("h1", 100) other Status.OK).client = some id1 ∧
      (GetClient p3 ("h1", 100) other Status.OK).pool.client_map_ =
        [(id1, ⟨"h1", 100, id1⟩), (id2, ⟨"h1", 100, id2⟩)] ∧
      (GetClient p3 ("h1", 100) other Status.OK).pool.calls = r2.pool.calls := by
  have hne : ¬ id1 = id2 := by
    intro h
    subst h
    simp [GetClient, BackendClientCache.new, find, assign] at hfresh
  have hne2 : id2 ≠ id1 := fun h => hne h.symm
  simp [GetClient, ReleaseClient, BackendClientCache.new, find, assign, hne, hne2]

/-- Witness of C1 with the handles 1, 2 and the unused address 3. -/
theorem C1_checkout_release_reuse_witness :
    (GetClient (GetClient (BackendClientCache.new 8 4) ("h1", 100) 1 Status.OK).pool
      ("h1", 100) 2 Status.OK).client = some 2 ∧
    ∃ p3, ReleaseClient (GetClient (GetClient (BackendClientCache.new 8 4) ("h1", 100) 1
        Status.OK).pool ("h1", 100) 2 Status.OK).pool 1 = some p3 ∧
      (GetClient p3 ("h1", 100) 3 Status.OK).client = some 1 := by
  obtain ⟨_, _, _, h4, _, p3, h6, _, h8, _⟩ :=
    C1_checkout_release_reuse 8 4 1 2 3 (by decide)
  exact ⟨h4, p3, h6, h8⟩

/-- C2 fails as stated: `poolOneIdleOneOut` is reachable, handle 2 is known and
belongs to `peerH1`, yet `ReleaseClient(2)` followed at once by
`GetClient(peerH1)` returns handle 1, the connection that was already idle. -/
theorem C2_counterexample :
    Reachable poolOneIdleOneOut ∧
    find poolOneIdleOneOut.client_map_ 2 = some (connH1 2) ∧
    ((connH1 2).ipaddress, (connH1 2).port) = peerH1 ∧
    ∃ t, ReleaseClient poolOneIdleOneOut 2 = some t ∧
      (GetClient t peerH1 3 Status.OK).client = some 1 ∧
      (GetClient t peerH1 3 Status.OK).client ≠ some 2 := by
  refine ⟨?_, by decide, by decide, ?_⟩
  · have h0 := Reachable.init 0 0
    have h1 := Reachable.getClient _ peerH1 1 Status.OK h0 (by decide)
    have h2 := Reachable.getClient _ peerH1 2 Status.OK h1 (by decide)
    exact Reachable.releaseClient _ poolOneIdleOneOut 1 h2 (by decide)
  · exact ⟨_, rfl, by decide, by decide⟩

/-- C2, amended: in a reachable pool, for a known handle `h` whose connection
belongs to `addr`, `ReleaseClient(h)` succeeds and the `GetClient(addr)` that
follows at once returns the front of the idle list extended by `h`: it is `h`
when `addr` had no idle connection at the release, and otherwise the handle of
the connection that was at the front of the idle list. -/
theorem C2_release_then_checkout (s : BackendClientCache) (h : Handle) (c : BackendClient)
    (addr : HostPort) (fresh : Handle) (open_status : Status)
    (hr : Reachable s) (hc : find s.client_map_ h = some c)
    (ha : (c.ipaddress, c.port) = addr) :
    ∃ t, ReleaseClient s h = some t ∧
      (idle s addr = [] → (GetClient t addr fresh open_status).client = some h) ∧
      (∀ d rest, idle s addr = d :: rest →
        (GetClient t addr fresh open_status).client = some d.iface) := by
  obtain ⟨hif, hkey⟩ := Reachable_wellFormed s hr h c hc
  subst ha
  refine ⟨_, ReleaseClient_some s h c hc hkey, ?_, ?_⟩
  · intro hi
    rw [GetClient_reuse _ _ fresh open_status c [] (by simp [find_assign_self, hi])]
    simp [hif]
  · intro d rest hi
    rw [GetClient_reuse _ _ fresh open_status d (rest ++ [c])
      (by simp [find_assign_self, hi])]

/-- Witness of the amended C2 on `poolTwoOut`, where `peerH1` has no idle
connection: releasing handle 2 and asking again returns handle 2. -/
theorem C2_release_then_checkout_witness :
    idle poolTwoOut peerH1 = [] ∧
    ∃ t, ReleaseClient poolTwoOut 2 = some t ∧
      (GetClient t peerH1 3 Status.OK).client = some 2 := by
  obtain ⟨t, h1, h2, _⟩ :=
    C2_release_then_checkout poolTwoOut 2 (connH1 2) peerH1 3 Status.OK
      (Reachable.getClient _ peerH1 2 Status.OK
        (Reachable.getClient _ peerH1 1 Status.OK (Reachable.init 0 0) (by decide))
        (by decide))
      (by decide) (by decide)
  exact ⟨by decide, t, h1, h2 (by decide)⟩

/-- C3: reuse within one peer is first in, first out.  In a reachable pool
where `addr` has no idle connection, releasing known handles `h1 .. hn` of
that peer in this order succeeds, and the `n` calls of `GetClient(addr)` that
follow return `h1, .., hn` in exactly this order, without any `Open` or `Close`
call. -/
theorem C3_fifo_reuse (s : BackendClientCache) (addr : HostPort) (hs : List Handle)
    (env : List (Handle × Status)) (hr : Reachable s) (hidle : idle s addr = [])
    (hpeer : ∀ h ∈ hs, ∃ c, find s.client_map_ h = some c ∧ (c.ipaddress, c.port) = addr)
    (henv : env.length = hs.length) :
    ∃ t, releaseAll s hs = some t ∧
      (getClients t addr env).1 = hs.map some ∧
      (getClients t addr env).2.calls = s.calls := by
  obtain ⟨t, h1, _, h3, _, h5⟩ :=
    releaseAll_peer addr hs s (Reachable_wellFormed s hr) hpeer
  rw [hidle, List.nil_append] at h5
  have hg := getClients_reuse addr (hs.map (fun h => ⟨addr.1, addr.2, h⟩)) [] t env
    (by simpa using henv) (by simpa using h5)
  refine ⟨t, h1, ?_, ?_⟩
  · rw [hg.1]
    simp [List.map_map, Function.comp_def]
  · rw [hg.2.1, h3]

/-- Witness of C3 on `poolTwoOut`: releasing 2 then 1 makes the next two
`GetClient(peerH1)` return 2 then 1. -/
theorem C3_fifo_reuse_witness :
    ∃ t, releaseAll poolTwoOut [2, 1] = some t ∧
      (getClients t peerH1 [(7, Status.OK), (8, Status.OK)]).1 = [some 2, some 1] ∧
      (getClients t peerH1 [(7, Status.OK), (8, Status.OK)]).2.calls = poolTwoOut.calls :=
  C3_fifo_reuse poolTwoOut peerH1 [2, 1] [(7, Status.OK), (8, Status.OK)]
    (Reachable.getClient _ peerH1 2 Status.OK
      (Reachable.getClient _ peerH1 1 Status.OK (Reachable.init 0 0) (by decide))
      (by decide))
    (by decide) (by decide) (by decide)

/-- C4: the reuse fast path.  When the idle list of `addr` is `front :: rest`,
`GetClient(addr)` returns `Status::OK` with the handle of `front`, leaves
`rest` as the idle list of `addr`, calls neither `Open` nor `Close`, and leaves
`client_map_`, the set of peers and every other peer's idle list unchanged. -/
theorem C4_reuse_fast_path (s : BackendClientCache) (addr : HostPort) (fresh : Handle)
    (open_status : Status) (front : BackendClient) (rest : List BackendClient)
    (h : find s.client_cache_ addr = some (front :: rest)) :
    (GetClient s addr fresh open_status).status = Status.OK ∧
    (GetClient s addr fresh open_status).client = some front.iface ∧
    find (GetClient s addr fresh open_status).pool.client_cache_ addr = some rest ∧
    (GetClient s addr fresh open_status).pool.calls = s.calls ∧
    (GetClient s addr fresh open_status).pool.client_map_ = s.client_map_ ∧
    (∀ p, p ≠ addr →
      find (GetClient s addr fresh open_status).pool.client_cache_ p =
        find s.client_cache_ p) := by
  rw [GetClient_reuse s addr fresh open_status front rest h]
  refine ⟨rfl, rfl, find_assign_self _ _ _, rfl, rfl, ?_⟩
  intro p hp
  exact find_assign_ne _ _ _ _ (fun e => hp e.symm)

/-- Witness of C4 on `poolOneIdle`: the idle connection 1 is handed out. -/
theorem C4_reuse_fast_path_witness :
    (GetClient poolOneIdle peerH1 9 (Status.error "down")).status = Status.OK ∧
    (GetClient poolOneIdle peerH1 9 (Status.error "down")).client = some 1 ∧
    (GetClient poolOneIdle peerH1 9 (Status.error "down")).pool.calls = poolOneIdle.calls := by
  obtain ⟨h1, h2, _, h4, _⟩ :=
    C4_reuse_fast_path poolOneIdle peerH1 9 (Status.error "down") (connH1 1) [] (by decide)
  exact ⟨h1, h2, h4⟩

/-- C5: in a checkout/release sequence on one peer, started on an empty pool,
with every `Open` succeeding and every `ReleaseClient` given a handle that is
checked out, no `DCHECK` fails, and after every prefix of the sequence the
number of connections created so far is at most the largest number of handles
that were checked out at the same time so far; the connections registered in
`client_map_` are among those created. -/
theorem C5_created_le_max_outstanding (m n : Int) (addr : HostPort) (ops : List PoolOp)
    (k : Nat) :
    run addr (RunState.start m n) (ops.take k) ≠ Except.error RunError.dcheck ∧
    ∀ rs, run addr (RunState.start m n) (ops.take k) = Except.ok rs →
      connectionsCreated rs.pool ≤ rs.maxOutstanding ∧
      rs.pool.client_map_.length ≤ connectionsCreated rs.pool := by
  obtain ⟨h1, h2⟩ := run_inv addr (ops.take k) (RunState.start m n) (RunInv_start addr m n)
  exact ⟨h1, fun rs h => ⟨(h2 rs h).bound, (h2 rs h).registered⟩⟩

/-- Witness of C5: two checkouts, a release and a third checkout create two
connections while two handles were out at once. -/
theorem C5_created_le_max_outstanding_witness :
    ∃ rs, run peerH1 (RunState.start 0 0)
        ([PoolOp.get 1, PoolOp.get 2, PoolOp.release 1, PoolOp.get 3].take 4) =
        Except.ok rs ∧
      connectionsCreated rs.pool = 2 ∧ rs.maxOutstanding = 2 ∧
      connectionsCreated rs.pool ≤ rs.maxOutstanding :=
  ⟨_, rfl, by decide, by decide,
    ((C5_created_le_max_outstanding 0 0 peerH1
      [PoolOp.get 1, PoolOp.get 2, PoolOp.release 1, PoolOp.get 3] 4).2 _ rfl).1⟩

/-- C6: when the idle list of `addr` is empty or absent and `Open` fails on the
new connection, `GetClient(addr)` returns the failing status, writes no
handle, leaves `client_map_` unchanged and no peer's idle list gains an
element. -/
theorem C6_open_failure_registers_nothing (s : BackendClientCache) (addr : HostPort)
    (fresh : Handle) (msg : String) (h : idle s addr = []) :
    (GetClient s addr fresh (Status.error msg)).status = Status.error msg ∧
    (GetClient s addr fresh (Status.error msg)).client = none ∧
    (GetClient s addr fresh (Status.error msg)).pool.client_map_ = s.client_map_ ∧
    ∀ p, idle (GetClient s addr fresh (Status.error msg)).pool p = idle s p := by
  rw [GetClient_create_error s addr fresh msg h]
  refine ⟨rfl, rfl, rfl, ?_⟩
  intro p
  simp only [idle, find_withEntry]

/-- Witness of C6: a failed checkout of `peerH2` on `poolOneIdle`. -/
theorem C6_open_failure_registers_nothing_witness :
    (GetClient poolOneIdle peerH2 5 (Status.error "refused")).status =
      Status.error "refused" ∧
    (GetClient poolOneIdle peerH2 5 (Status.error "refused")).pool.client_map_ =
      poolOneIdle.client_map_ := by
  obtain ⟨h1, _, h3, _⟩ :=
    C6_open_failure_registers_nothing poolOneIdle peerH2 5 "refused" (by decide)
  exact ⟨h1, h3⟩

/-- C7 fails as stated: after the failed `GetClient(("h2",200))` on an empty
pool, `client_cache_` does have the key `("h2",200)` and `DebugString` reports
one host. -/
theorem C7_counterexample :
    (GetClient (BackendClientCache.new 0 0) peerH2 1 (Status.error "refused")).status =
      Status.error "refused" ∧
    find (GetClient (BackendClientCache.new 0 0) peerH2 1
      (Status.error "refused")).pool.client_cache_ peerH2 = some [] ∧
    DebugString (GetClient (BackendClientCache.new 0 0) peerH2 1
      (Status.error "refused")).pool = "BackendClientCache(#hosts=1 [h2:200:0])" := by
  decide

/-- C7, amended: after the failed `GetClient(("h2",200))` on an empty pool no
connection is registered (`client_map_` is empty) and no connection is idle,
but `client_cache_` holds the key `("h2",200)` with an empty list, inserted
before `Open` was tried, and `DebugString` reports `#hosts=1` with the entry
`h2:200:0`. -/
theorem C7_failed_checkout_leaves_empty_entry (m n : Int) (fresh : Handle) (msg : String) :
    (GetClient (BackendClientCache.new m n) ("h2", 200) fresh (Status.error msg)).status =
      Status.error msg ∧
    (GetClient (BackendClientCache.new m n) ("h2", 200) fresh
      (Status.error msg)).pool.client_map_ = [] ∧
    (GetClient (BackendClientCache.new m n) ("h2", 200) fresh
      (Status.error msg)).pool.client_cache_ = [(("h2", 200), [])] ∧
    DebugString (GetClient (BackendClientCache.new m n) ("h2", 200) fresh
      (Status.error msg)).pool = "BackendClientCache(#hosts=1 [h2:200:0])" := by
  refine ⟨?_, ?_, ?_, ?_⟩
  · simp [GetClient, BackendClientCache.new, find]
  · simp [GetClient, BackendClientCache.new, find]
  · simp [GetClient, BackendClientCache.new, find]
  · have h : (GetClient (BackendClientCache.new m n) ("h2", 200) fresh
        (Status.error msg)).pool.client_cache_ = [(("h2", 200), [])] := by
      simp [GetClient, BackendClientCache.new, find]
    unfold DebugString
    rw [h]
    decide

/-- C8 fails as stated: `poolOneIdle` is reachable with connection 1 idle for
`peerH1`; `CloseConnections(peerH1)` closes it, and the `GetClient(peerH1)` that
follows returns handle 1, the connection just closed, without any `Open`. -/
theorem C8_counterexample :
    Reachable poolOneIdle ∧
    connH1 1 ∈ idle poolOneIdle peerH1 ∧
    Call.Close (connH1 1) ∈ (CloseConnections poolOneIdle peerH1).calls ∧
    (GetClient (CloseConnections poolOneIdle peerH1) peerH1 2 Status.OK).client = some 1 ∧
    (GetClient (CloseConnections poolOneIdle peerH1) peerH1 2 Status.OK).pool.calls =
      (CloseConnections poolOneIdle peerH1).calls := by
  refine ⟨?_, by decide, by decide, by decide, by decide⟩
  have h1 := Reachable.getClient _ peerH1 1 Status.OK (Reachable.init 0 0) (by decide)
  exact Reachable.releaseClient _ poolOneIdle 1 h1 (by decide)

/-- C8, amended: `CloseConnections(addr)` closes the idle connections of `addr`
but keeps them in the idle list.  The `GetClient(addr)` that follows takes the
creation path (one `Open` on a new connection) exactly when `addr` had no idle
connection at the time of `CloseConnections`; otherwise it returns, without
any call, the handle of the front idle connection, which was just closed.  The
calls `CloseConnections` makes are `Close` on each element of the idle list. -/
theorem C8_close_then_checkout (s : BackendClientCache) (addr : HostPort) (fresh : Handle)
    (open_status : Status) :
    (∀ p, idle (CloseConnections s addr) p = idle s p) ∧
    (idle s addr = [] →
      (GetClient (CloseConnections s addr) addr fresh open_status).status = open_status ∧
      (GetClient (CloseConnections s addr) addr fresh open_status).pool.calls =
        (CloseConnections s addr).calls ++ [Call.Open ⟨addr.1, addr.2, fresh⟩] ∧
      (open_status = Status.OK →
        (GetClient (CloseConnections s addr) addr fresh open_status).client = some fresh)) ∧
    (∀ front rest, idle s addr = front :: rest →
      (GetClient (CloseConnections s addr) addr fresh open_status).status = Status.OK ∧
      (GetClient (CloseConnections s addr) addr fresh open_status).client =
        some front.iface ∧
      Call.Close front ∈ (CloseConnections s addr).calls ∧
      (GetClient (CloseConnections s addr) addr fresh open_status).pool.calls =
        (CloseConnections s addr).calls) ∧
    (CloseConnections s addr).calls = s.calls ++ (idle s addr).map Call.Close := by
  rw [CloseConnections_eq]
  refine ⟨fun p => rfl, ?_, ?_, rfl⟩
  · intro hi
    have hi2 : idle { s with calls := s.calls ++ closeCalls s addr } addr = [] := hi
    cases open_status with
    | OK =>
      rw [GetClient_create_ok _ addr fresh hi2]
      exact ⟨rfl, rfl, fun _ => rfl⟩
    | error msg =>
      rw [GetClient_create_error _ addr fresh msg hi2]
      exact ⟨rfl, rfl, fun e => by simp at e⟩
  · intro front rest hi
    have hf : find ({ s with calls := s.calls ++ closeCalls s addr } :
        BackendClientCache).client_cache_ addr = some (front :: rest) :=
      idle_cons s addr front rest hi
    rw [GetClient_reuse _ addr fresh open_status front rest hf]
    refine ⟨rfl, rfl, ?_, rfl⟩
    simp [closeCalls, hi]

/-- Witness of the amended C8 on `poolOneIdle`. -/
theorem C8_close_then_checkout_witness :
    idle poolOneIdle peerH1 = [connH1 1] ∧
    (GetClient (CloseConnections poolOneIdle peerH1) peerH1 2 Status.OK).client = some 1 ∧
    Call.Close (connH1 1) ∈ (CloseConnections poolOneIdle peerH1).calls := by
  obtain ⟨_, h2, h3, _⟩ :=
    (C8_close_then_checkout poolOneIdle peerH1 2 Status.OK).2.2.1 (connH1 1) [] (by decide)
  exact ⟨by decide, h2, h3⟩

/-- C10 fails as stated.  `poolDoubleRelease` is reachable (`GetClient`, then
`ReleaseClient(1)` twice) and `CloseConnections(peerH1)` calls `Close` twice on
connection 1.  `poolHeldAndIdle` is reachable from it by `GetClient(peerH1)`,
which returns handle 1; connection 1 is then checked out and still in the idle
list, and `CloseConnections(peerH1)` calls `Close` on it. -/
theorem C10_counterexample :
    Reachable poolDoubleRelease ∧
    (CloseConnections poolDoubleRelease peerH1).calls.count (Call.Close (connH1 1)) =
      poolDoubleRelease.calls.count (Call.Close (connH1 1)) + 2 ∧
    (GetClient poolDoubleRelease peerH1 2 Status.OK).client = some 1 ∧
    Reachable poolHeldAndIdle ∧
    (CloseConnections poolHeldAndIdle peerH1).calls =
      poolHeldAndIdle.calls ++ [Call.Close (connH1 1)] ∧
    callsOn (connH1 1) (CloseConnections poolHeldAndIdle peerH1).calls ≠
      callsOn (connH1 1) poolHeldAndIdle.calls := by
  have h1 := Reachable.getClient _ peerH1 1 Status.OK (Reachable.init 0 0) (by decide)
  have h2 := Reachable.releaseClient _ poolOneIdle 1 h1 (by decide)
  have h3 : Reachable poolDoubleRelease :=
    Reachable.releaseClient _ poolDoubleRelease 1 h2 (by decide)
  exact ⟨h3, by decide, by decide,
    Reachable.getClient poolDoubleRelease peerH1 2 Status.OK h3 (by decide),
    by decide, by decide⟩

/-- C10, amended: in a pool reached with `ReleaseClient` only given handles that
are checked out, `CloseConnections(addr)` calls `Close` exactly once on each
connection of the idle list of `addr`, in list order, makes no other call and
modifies neither container.  A connection that is checked out, and an idle
connection of another peer, is not in that list and receives no call: the
calls made on it, hence its open/closed state, stay the same. -/
theorem C10_close_connections_exact (s : BackendClientCache) (out : List Handle)
    (addr : HostPort) (ht : Tracked s out) :
    (CloseConnections s addr).calls = s.calls ++ (idle s addr).map Call.Close ∧
    (CloseConnections s addr).client_cache_ = s.client_cache_ ∧
    (CloseConnections s addr).client_map_ = s.client_map_ ∧
    (idle s addr).Nodup ∧
    (∀ c, c ∈ idle s addr →
      (CloseConnections s addr).calls.count (Call.Close c) =
        s.calls.count (Call.Close c) + 1) ∧
    (∀ c, c ∉ idle s addr →
      callsOn c (CloseConnections s addr).calls = callsOn c s.calls) ∧
    (∀ c, (CloseConnections s addr).calls.count (Call.Open c) =
      s.calls.count (Call.Open c)) ∧
    (∀ h c, find s.client_map_ h = some c → h ∈ out →
      c ∉ idle s addr ∧
      callsOn c (CloseConnections s addr).calls = callsOn c s.calls) ∧
    (∀ p c, p ≠ addr → c ∈ idle s p →
      c ∉ idle s addr ∧
      callsOn c (CloseConnections s addr).calls = callsOn c s.calls) := by
  have inv := Tracked_inv s out ht
  have hnd : (idle s addr).Nodup := (idle_sublist_allIdle s addr).nodup inv.idleNodup
  have hframe : ∀ c, c ∉ idle s addr →
      callsOn c (CloseConnections s addr).calls = callsOn c s.calls := by
    intro c hc
    rw [CloseConnections_eq]
    simp only [callsOn, closeCalls, List.filter_append]
    have h := callsOn_map_Close c (idle s addr) hc
    simp only [callsOn] at h
    rw [h, List.append_nil]
  have hout : ∀ h c, find s.client_map_ h = some c → h ∈ out → c ∉ idle s addr := by
    intro h c hc hm hi
    have h1 := (inv.idleKnown c (idle_subset_allIdle s addr c hi)).2
    rw [(inv.registered h c hc).1] at h1
    exact h1 hm
  have hother : ∀ p c, p ≠ addr → c ∈ idle s p → c ∉ idle s addr := by
    intro p c hp hc hi
    have h1 := TrackInv_idle_peer s out inv p c hc
    have h2 := TrackInv_idle_peer s out inv addr c hi
    exact hp (h1.symm.trans h2)
  refine ⟨by rw [CloseConnections_eq]; rfl, by rw [CloseConnections_eq],
    by rw [CloseConnections_eq], hnd, ?_, hframe, ?_, ?_, ?_⟩
  · intro c hc
    rw [CloseConnections_eq]
    simp only [closeCalls, List.count_append, count_map_Close]
    rw [count_one_of_nodup_mem _ c hnd hc]
  · intro c
    rw [CloseConnections_eq]
    simp [closeCalls, List.count_append, count_map_Close_Open]
  · intro h c hc hm
    exact ⟨hout h c hc hm, hframe c (hout h c hc hm)⟩
  · intro p c hp hc
    exact ⟨hother p c hp hc, hframe c (hother p c hp hc)⟩

/-- Witness of the amended C10 on `poolOneIdleOneOut` with handle 2 checked out:
the idle connection 1 is closed once, the checked-out connection 2 receives
no call. -/
theorem C10_close_connections_exact_witness :
    (CloseConnections poolOneIdleOneOut peerH1).calls =
      poolOneIdleOneOut.calls ++ [Call.Close (connH1 1)] ∧
    (CloseConnections poolOneIdleOneOut peerH1).calls.count (Call.Close (connH1 1)) =
      poolOneIdleOneOut.calls.count (Call.Close (connH1 1)) + 1 ∧
    callsOn (connH1 2) (CloseConnections poolOneIdleOneOut peerH1).calls =
      callsOn (connH1 2) poolOneIdleOneOut.calls := by
  have h0 := Tracked.init 0 0
  have h1 := Tracked.getClient _ _ peerH1 1 Status.OK h0 (by decide)
  have h2 := Tracked.getClient _ _ peerH1 2 Status.OK h1 (by decide)
  have h3 : Tracked poolOneIdleOneOut [2] :=
    Tracked.releaseClient _ poolOneIdleOneOut _ 1 h2 (by decide) (by decide)
  obtain ⟨r1, _, _, _, r5, _, _, r8, _⟩ :=
    C10_close_connections_exact poolOneIdleOneOut [2] peerH1 h3
  exact ⟨r1, r5 (connH1 1) (by decide), (r8 2 (connH1 2) (by decide) (by decide)).2⟩

/-! ## Reopening -/

/-- C11 fails as stated: handle 1 is registered in `poolOneOut`, and when `Close`
fails `ReopenClient(1)` makes the one call `Close` and no `Open`. -/
theorem C11_counterexample :
    find poolOneOut.client_map_ 1 = some (connH1 1) ∧
    ∃ t, ReopenClient poolOneOut 1 (Status.error "broken pipe") Status.OK =
        some (Status.error "broken pipe", t) ∧
      t.calls = poolOneOut.calls ++ [Call.Close (connH1 1)] ∧
      t.calls.count (Call.Open (connH1 1)) = poolOneOut.calls.count (Call.Open (connH1 1)) :=
  ⟨by decide, _, rfl, by decide, by decide⟩

/-- C11, amended: for a registered handle `h`, `ReopenClient(h)` calls `Close`
and, when `Close` succeeds, then `Open`, both on the connection `h` maps to,
and changes nothing else: `client_map_` (the entry of `h` included), every
idle list and both limits are the same before and after, whatever `Close` and
`Open` return. -/
theorem C11_reopen_frame (s : BackendClientCache) (h : Handle) (c : BackendClient)
    (close_status open_status : Status) (hc : find s.client_map_ h = some c) :
    ∃ st t, ReopenClient s h close_status open_status = some (st, t) ∧
      t.client_map_ = s.client_map_ ∧ t.client_cache_ = s.client_cache_ ∧
      t.max_clients_ = s.max_clients_ ∧
      t.max_clients_per_backend_ = s.max_clients_per_backend_ ∧
      find t.client_map_ h = some c ∧
      (close_status = Status.OK → t.calls = s.calls ++ [Call.Close c, Call.Open c]) ∧
      (close_status ≠ Status.OK → t.calls = s.calls ++ [Call.Close c]) := by
  cases close_status with
  | OK =>
    exact ⟨_, _, ReopenClient_close_ok s h c open_status hc, rfl, rfl, rfl, rfl, hc,
      fun _ => rfl, fun e => absurd rfl e⟩
  | error msg =>
    exact ⟨_, _, ReopenClient_close_error s h c msg open_status hc, rfl, rfl, rfl, rfl, hc,
      fun e => by simp at e, fun _ => rfl⟩

/-- Witness of the amended C11: reopening handle 1 of `poolOneOut`, `Close`
succeeding and `Open` failing. -/
theorem C11_reopen_frame_witness :
    ∃ st t, ReopenClient poolOneOut 1 Status.OK (Status.error "refused") = some (st, t) ∧
      t.client_map_ = poolOneOut.client_map_ ∧
      t.client_cache_ = poolOneOut.client_cache_ ∧
      t.calls = poolOneOut.calls ++ [Call.Close (connH1 1), Call.Open (connH1 1)] := by
  obtain ⟨st, t, h1, h2, h3, _, _, _, h7, _⟩ :=
    C11_reopen_frame poolOneOut 1 (connH1 1) Status.OK (Status.error "refused") (by decide)
  exact ⟨st, t, h1, h2, h3, h7 rfl⟩

/-- C12: `ReopenClient` returns the first failure.  For a registered handle, a
failing `Close` makes it return that error with `Close` the only call made; a
succeeding `Close` followed by a failing `Open` makes it return the error of
`Open`; and it returns `Status::OK` exactly when both succeed. -/
theorem C12_reopen_first_failure (s : BackendClientCache) (h : Handle) (c : BackendClient)
    (hc : find s.client_map_ h = some c) :
    (∀ msg open_status,
      ReopenClient s h (Status.error msg) open_status =
        some (Status.error msg, { s with calls := s.calls ++ [Call.Close c] })) ∧
    (∀ msg,
      ReopenClient s h Status.OK (Status.error msg) =
        some (Status.error msg,
          { s with calls := s.calls ++ [Call.Close c, Call.Open c] })) ∧
    (∀ close_status open_status st t,
      ReopenClient s h close_status open_status = some (st, t) →
      (st = Status.OK ↔ close_status = Status.OK ∧ open_status = Status.OK)) := by
  refine ⟨fun msg open_status => ReopenClient_close_error s h c msg open_status hc,
    fun msg => ReopenClient_close_ok s h c (Status.error msg) hc, ?_⟩
  intro close_status open_status st t hr
  cases close_status with
  | OK =>
    rw [ReopenClient_close_ok s h c open_status hc] at hr
    simp only [Option.some.injEq, Prod.mk.injEq] at hr
    rw [← hr.1]
    simp
  | error msg =>
    rw [ReopenClient_close_error s h c msg open_status hc] at hr
    simp only [Option.some.injEq, Prod.mk.injEq] at hr
    rw [← hr.1]
    simp

/-- Witness of C12 on `poolOneOut`: `Close` fails, its error comes back and no
`Open` is recorded. -/
theorem C12_reopen_first_failure_witness :
    ReopenClient poolOneOut 1 (Status.error "broken pipe") Status.OK =
      some (Status.error "broken pipe",
        { poolOneOut with calls := poolOneOut.calls ++ [Call.Close (connH1 1)] }) :=
  (C12_reopen_first_failure poolOneOut 1 (connH1 1) (by decide)).1 "broken pipe" Status.OK

/-- C13 fails as stated: in `poolOneOut`, when `Close` fails, `ReopenClient(1)`
returns at once; the calls it made are `Close` alone, `Open` is not tried. -/
theorem C13_counterexample :
    find poolOneOut.client_map_ 1 = some (connH1 1) ∧
    ∃ t, ReopenClient poolOneOut 1 (Status.error "timed out") Status.OK =
        some (Status.error "timed out", t) ∧
      t.calls = poolOneOut.calls ++ [Call.Close (connH1 1)] ∧
      Call.Open (connH1 1) ∉ t.calls.drop poolOneOut.calls.length :=
  ⟨by decide, _, rfl, by decide, by decide⟩

/-- C13, amended: for a registered handle, when `Close` fails during
`ReopenClient`, the error of `Close` is returned to the caller and `Open` is
not attempted: `Close` on the handle's connection is the only call made,
whatever `Open` would have returned. -/
theorem C13_reopen_close_failure (s : BackendClientCache) (h : Handle) (c : BackendClient)
    (msg : String) (open_status : Status) (hc : find s.client_map_ h = some c) :
    ∃ t, ReopenClient s h (Status.error msg) open_status = some (Status.error msg, t) ∧
      t.calls = s.calls ++ [Call.Close c] ∧
      (∀ d, t.calls.count (Call.Open d) = s.calls.count (Call.Open d)) := by
  refine ⟨_, ReopenClient_close_error s h c msg open_status hc, rfl, ?_⟩
  intro d
  simp [List.count_append, List.count_cons]

/-- Witness of the amended C13 on `poolOneOut`. -/
theorem C13_reopen_close_failure_witness :
    ∃ t, ReopenClient poolOneOut 1 (Status.error "timed out") Status.OK =
        some (Status.error "timed out", t) ∧
      t.calls = poolOneOut.calls ++ [Call.Close (connH1 1)] := by
  obtain ⟨t, h1, h2, _⟩ :=
    C13_reopen_close_failure poolOneOut 1 (connH1 1) "timed out" Status.OK (by decide)
  exact ⟨t, h1, h2⟩

/-! ## The reverse index and the limits -/

/-- C14: the reverse index only grows.  Whatever the operation (`GetClient`,
`ReopenClient`, `ReleaseClient`, `CloseConnections`, `DebugString`,
`TestShutdown`) and the pool, a handle that is a key of `client_map_` before the
operation is one afterwards and maps to the same connection, `new` giving
`GetClient` an address no registered connection owns; and `CloseConnections`
leaves `client_map_` as a whole untouched, so a connection it closes keeps its
entry. -/
theorem C14_reverse_index_only_grows (s t : BackendClientCache) (op : CacheOp)
    (r : CacheResult) (he : exec s op = some (r, t)) (hf : op.freshFor s) :
    (∀ h c, find s.client_map_ h = some c → find t.client_map_ h = some c) ∧
    (∀ hostport, (CloseConnections s hostport).client_map_ = s.client_map_) := by
  refine ⟨fun h c hc => exec_client_map s t op r he hf h c hc, ?_⟩
  intro hostport
  rw [CloseConnections_eq]

/-- Witness of C14: `CloseConnections(peerH1)` on `poolOneIdle` closes
connection 1, which stays registered under handle 1. -/
theorem C14_reverse_index_only_grows_witness :
    Call.Close (connH1 1) ∈ (CloseConnections poolOneIdle peerH1).calls ∧
    find (CloseConnections poolOneIdle peerH1).client_map_ 1 = some (connH1 1) :=
  ⟨by decide,
    (C14_reverse_index_only_grows poolOneIdle (CloseConnections poolOneIdle peerH1)
      (CacheOp.closeConnections peerH1) CacheResult.done rfl trivial).1 1 (connH1 1)
      (by decide)⟩

/-- C17: the limits are never enforced.  Two pools built with any two pairs of
limits, given the same sequence of operations with the same outcomes of `new`,
`Open` and `Close`, fail the same `DCHECK`s or else return the same results
and end with the same `client_cache_`, `client_map_` and calls made.  And
`GetClient` on a peer without idle connection, `Open` succeeding, returns
`Status::OK` with the new handle in every pool, whatever its limits and
however many connections it holds. -/
theorem C17_limits_not_enforced (m n m2 n2 : Int) (ops : List CacheOp) :
    (execAll (BackendClientCache.new m2 n2) ops).map
        (fun x => (x.1, x.2.client_cache_, x.2.client_map_, x.2.calls)) =
      (execAll (BackendClientCache.new m n) ops).map
        (fun x => (x.1, x.2.client_cache_, x.2.client_map_, x.2.calls)) ∧
    (∀ (s : BackendClientCache) (addr : HostPort) (fresh : Handle), idle s addr = [] →
      (GetClient s addr fresh Status.OK).status = Status.OK ∧
      (GetClient s addr fresh Status.OK).client = some fresh ∧
      (GetClient (setLimits s 0 0) addr fresh Status.OK).status = Status.OK) := by
  constructor
  · have h0 : BackendClientCache.new m2 n2 = setLimits (BackendClientCache.new m n) m2 n2 :=
      rfl
    rw [h0, execAll_setLimits]
    cases execAll (BackendClientCache.new m n) ops with
    | none => rfl
    | some x => rfl
  · intro s addr fresh hi
    have hi2 : idle (setLimits s 0 0) addr = [] := hi
    rw [GetClient_create_ok s addr fresh hi, GetClient_create_ok _ addr fresh hi2]
    exact ⟨rfl, rfl, rfl⟩

/-- Witness of C17: `poolTwoOut` has both limits 0 and two connections, and a
third `GetClient(peerH1)` still succeeds. -/
theorem C17_limits_not_enforced_witness :
    poolTwoOut.max_clients_ = 0 ∧ poolTwoOut.client_map_.length = 2 ∧
    (GetClient poolTwoOut peerH1 3 Status.OK).status = Status.OK ∧
    (GetClient poolTwoOut peerH1 3 Status.OK).client = some 3 := by
  obtain ⟨h1, h2, _⟩ :=
    (C17_limits_not_enforced 0 0 1 1 []).2 poolTwoOut peerH1 3 (by decide)
  exact ⟨rfl, rfl, h1, h2⟩

/-! ## Idle and checked out -/

/-- C15: the idle/checked-out invariant.  In a pool reached from the empty one
by `GetClient`, `ReopenClient`, `CloseConnections`, `TestShutdown` and by
`ReleaseClient` on handles that are checked out, a connection registered in
`client_map_` under handle `h` has at most one place in all idle lists taken
together, every list holding it belongs to its own address, and it is idle
(in some list, namely in the list of its own address) exactly when `h` is not
checked out. -/
theorem C15_idle_iff_not_checked_out (s : BackendClientCache) (out : List Handle)
    (h : Handle) (c : BackendClient) (ht : Tracked s out)
    (hc : find s.client_map_ h = some c) :
    (allIdle s).count c ≤ 1 ∧
    (∀ e ∈ s.client_cache_, c ∈ e.2 → e.1 = (c.ipaddress, c.port)) ∧
    (c ∈ allIdle s ↔ h ∉ out) ∧
    (c ∈ idle s (c.ipaddress, c.port) ↔ h ∉ out) := by
  have inv := Tracked_inv s out ht
  obtain ⟨hif, _, hor⟩ := inv.registered h c hc
  have h1 : c ∈ allIdle s → h ∉ out := by
    intro hm
    have h2 := (inv.idleKnown c hm).2
    rw [hif] at h2
    exact h2
  have h2 : h ∉ out → c ∈ idle s (c.ipaddress, c.port) := by
    intro hn
    rcases hor with h3 | h3
    · exact absurd h3 hn
    · exact h3
  refine ⟨List.nodup_iff_count_le_one.mp inv.idleNodup c, ?_, ?_, ?_⟩
  · intro e he hm
    exact (inv.ownPeer e he c hm).symm
  · exact ⟨h1, fun hn => idle_subset_allIdle s _ c (h2 hn)⟩
  · exact ⟨fun hm => h1 (idle_subset_allIdle s _ c hm), h2⟩

/-- Witness of C15 on `poolOneIdleOneOut` with handle 2 checked out: connection
1 is idle and not checked out. -/
theorem C15_idle_iff_not_checked_out_witness :
    (allIdle poolOneIdleOneOut).count (connH1 1) ≤ 1 ∧
    (connH1 1 ∈ allIdle poolOneIdleOneOut ↔ 1 ∉ [2]) := by
  have h0 := Tracked.init 0 0
  have h1 := Tracked.getClient _ _ peerH1 1 Status.OK h0 (by decide)
  have h2 := Tracked.getClient _ _ peerH1 2 Status.OK h1 (by decide)
  have h3 : Tracked poolOneIdleOneOut [2] :=
    Tracked.releaseClient _ poolOneIdleOneOut _ 1 h2 (by decide) (by decide)
  obtain ⟨r1, _, r3, _⟩ :=
    C15_idle_iff_not_checked_out poolOneIdleOneOut [2] 1 (connH1 1) h3 (by decide)
  exact ⟨r1, r3⟩

/-- C16 fails as stated: `GetClient(peerH1)` returning handle 1, then
`ReleaseClient(1)` twice (handle 1 is a key of `client_map_` both times, no
`DCHECK` fails) leads to `poolDoubleRelease`, whose idle list holds connection
1 twice; the next two `GetClient(peerH1)` both return handle 1, the second
while it is checked out. -/
theorem C16_counterexample :
    execAll (BackendClientCache.new 0 0)
      [CacheOp.getClient peerH1 1 Status.OK, CacheOp.releaseClient 1,
        CacheOp.releaseClient 1] =
      some ([CacheResult.getClient Status.OK (some 1), CacheResult.done, CacheResult.done],
        poolDoubleRelease) ∧
    idle poolDoubleRelease peerH1 = [connH1 1, connH1 1] ∧
    (GetClient poolDoubleRelease peerH1 2 Status.OK).client = some 1 ∧
    (GetClient (GetClient poolDoubleRelease peerH1 2 Status.OK).pool peerH1 3
      Status.OK).client = some 1 := by
  decide

/-- C16, amended: exclusive checkout rests on the callers.  When every
`ReleaseClient` is given a handle that is checked out (returned by `GetClient`
and not released since), `GetClient` never returns a handle that is checked
out, and no idle list holds a connection twice, before and after the call.
`ReleaseClient` itself accepts any registered handle. -/
theorem C16_exclusive_checkout (s : BackendClientCache) (out : List Handle)
    (hostport : HostPort) (fresh : Handle) (open_status : Status) (ht : Tracked s out)
    (hf : find s.client_map_ fresh = none) :
    (∀ h, (GetClient s hostport fresh open_status).client = some h → h ∉ out) ∧
    (∀ p, (idle s p).Nodup) ∧
    (∀ p, (idle (GetClient s hostport fresh open_status).pool p).Nodup) := by
  have inv := Tracked_inv s out ht
  have inv2 := TrackInv_GetClient s out hostport fresh open_status inv hf
  refine ⟨?_, ?_, ?_⟩
  · intro h hh
    have h1 := inv2.outNodup
    rw [hh] at h1
    exact (List.nodup_cons.mp h1).1
  · intro p
    exact (idle_sublist_allIdle s p).nodup inv.idleNodup
  · intro p
    exact (idle_sublist_allIdle _ p).nodup inv2.idleNodup

/-- Witness of the amended C16 on `poolOneIdleOneOut`, handle 2 checked out:
`GetClient(peerH1)` returns handle 1. -/
theorem C16_exclusive_checkout_witness :
    (GetClient poolOneIdleOneOut peerH1 3 Status.OK).client = some 1 ∧ 1 ∉ [2] ∧
    (idle poolOneIdleOneOut peerH1).Nodup := by
  have h0 := Tracked.init 0 0
  have h1 := Tracked.getClient _ _ peerH1 1 Status.OK h0 (by decide)
  have h2 := Tracked.getClient _ _ peerH1 2 Status.OK h1 (by decide)
  have h3 : Tracked poolOneIdleOneOut [2] :=
    Tracked.releaseClient _ poolOneIdleOneOut _ 1 h2 (by decide) (by decide)
  obtain ⟨r1, r2, _⟩ :=
    C16_exclusive_checkout poolOneIdleOneOut [2] peerH1 3 Status.OK h3 (by decide)
  exact ⟨by decide, r1 1 (by decide), r2 peerH1⟩

/-- C19: in every reachable pool, the address of each connection registered in
`client_map_` is a key of `client_cache_`; so in `ReleaseClient`, when the
lookup of the handle succeeds, the lookup of the address succeeds too and the
second `DCHECK` holds: the call completes. -/
theorem C19_release_peer_lookup_succeeds (s : BackendClientCache) (hr : Reachable s) :
    (∀ h c, find s.client_map_ h = some c →
      (find s.client_cache_ (c.ipaddress, c.port)).isSome) ∧
    (∀ h, (find s.client_map_ h).isSome → (ReleaseClient s h).isSome) := by
  have hw := Reachable_wellFormed s hr
  refine ⟨fun h c hc => (hw h c hc).2, ?_⟩
  intro h hh
  obtain ⟨c, hc⟩ := Option.isSome_iff_exists.mp hh
  rw [ReleaseClient_some s h c hc (hw h c hc).2]
  rfl

/-- Witness of C19 on `poolOneOut`: releasing handle 1 completes. -/
theorem C19_release_peer_lookup_succeeds_witness :
    (find poolOneOut.client_map_ 1).isSome ∧ (ReleaseClient poolOneOut 1).isSome :=
  ⟨by decide,
    (C19_release_peer_lookup_succeeds poolOneOut
      (Reachable.getClient _ peerH1 1 Status.OK (Reachable.init 0 0) (by decide))).2 1
      (by decide)⟩

/-! ## `HdfsByteStream::Read` -/

/-- C18: `Read` is short only at end of stream.  For `req_length >= 0` and an
`hdfsRead` that returns -1, 0 or a positive count not above the length asked
for, `Read` returns (`req_length` iterations are enough).  When it returns
`Status::OK`, `actual_length` is written, equals the sum of the positive counts
read, is at most `req_length`, and is below `req_length` only if the last
`hdfsRead` returned 0.  When some `hdfsRead` returned -1, and only then, `Read`
returns the error status, and `actual_length` is not written.  The counts and
the last value are the ones `hdfsRead` returned, call after call, for the
lengths the loop asked. -/
theorem C18_read_short_only_at_eof (s : HdfsByteStream)
    (AppendHdfsErrorMessage : String → String → String) (hdfsRead : Nat → Int → Int)
    (req_length : Int) (fuel : Nat) (h0 : 0 ≤ req_length) (hv : ValidReads hdfsRead)
    (hfuel : req_length ≤ (fuel : Int)) :
    ∃ r, Read s AppendHdfsErrorMessage hdfsRead req_length fuel = Except.ok r ∧
      (r.status = Status.OK →
        ∃ a, r.actual_length = some a ∧ a = positiveSum r.results ∧ a ≤ req_length ∧
          (a < req_length → r.results.getLast? = some 0)) ∧
      ((-1 : Int) ∈ r.results →
        r.status = Status.error
          (AppendHdfsErrorMessage "Error reading from HDFS file: " s.location_) ∧
        r.actual_length = none) ∧
      (r.status = Status.OK ↔ (-1 : Int) ∉ r.results) ∧
      IsTrace hdfsRead req_length 0 0 r.results := by
  obtain ⟨r0, hloop, pos, hpos, hsum, hn0, hnle, hfull, heof, hfail⟩ :=
    ReadLoop_start hdfsRead req_length fuel hv h0 hfuel
  have hneg : (-1 : Int) ∉ pos := fun hm => by
    have := hpos _ hm
    omega
  obtain ⟨ending, n, results⟩ := r0
  have hd : ¬ req_length < 0 := by omega
  cases ending with
  | eof =>
    have hres : results = pos ++ [0] := heof rfl
    refine ⟨_, (by simp only [Read, hd, if_false, hloop]; rfl), ?_, ?_, ?_,
      Read_trace s AppendHdfsErrorMessage hdfsRead req_length fuel _
        (by simp only [Read, hd, if_false, hloop])⟩
    · intro _
      refine ⟨n, rfl, ?_, hnle, ?_⟩
      · simp only [hres]
        rw [positiveSum_append_nonpos pos 0 hpos (le_refl 0)]
        exact hsum.symm
      · intro _
        simp [hres]
    · intro hm
      simp only [hres, List.mem_append, List.mem_singleton] at hm
      rcases hm with hm | hm
      · exact absurd hm hneg
      · omega
    · simp only [hres, List.mem_append, List.mem_singleton, true_iff]
      intro hm
      rcases hm with hm | hm
      · exact hneg hm
      · omega
  | failed =>
    have hres : results = pos ++ [-1] := hfail rfl
    refine ⟨_, (by simp only [Read, hd, if_false, hloop]; rfl), ?_, ?_, ?_,
      Read_trace s AppendHdfsErrorMessage hdfsRead req_length fuel _
        (by simp only [Read, hd, if_false, hloop])⟩
    · intro h
      simp at h
    · intro _
      exact ⟨rfl, rfl⟩
    · simp [hres]
  | full =>
    obtain ⟨hres, hn⟩ := hfull rfl
    simp only at hres hn hsum
    refine ⟨_, (by simp only [Read, hd, if_false, hloop]; rfl), ?_, ?_, ?_,
      Read_trace s AppendHdfsErrorMessage hdfsRead req_length fuel _
        (by simp only [Read, hd, if_false, hloop])⟩
    · intro _
      refine ⟨n, rfl, ?_, hnle, ?_⟩
      · simp only [hres]
        rw [positiveSum_of_pos pos hpos]
        exact hsum.symm
      · intro hlt
        omega
    · intro hm
      simp only [hres] at hm
      exact absurd hm hneg
    · simp only [hres, true_iff]
      exact hneg

/-- Witness of C18: 16 bytes asked of a file of 10 give 10 bytes, the last
`hdfsRead` returning 0. -/
theorem C18_read_short_only_at_eof_witness :
    ∃ r, Read streamAt100 (fun a b => a ++ b) tenBytes 16 16 = Except.ok r ∧
      r.results = [4, 4, 2, 0] ∧
      (r.status = Status.OK →
        ∃ a, r.actual_length = some a ∧ a = positiveSum r.results ∧ a ≤ 16 ∧
          (a < 16 → r.results.getLast? = some 0)) := by
  obtain ⟨r, h1, h2, _⟩ :=
    C18_read_short_only_at_eof streamAt100 (fun a b => a ++ b) tenBytes 16 16
      (by decide) ValidReads_tenBytes (by decide)
  have h3 : Read streamAt100 (fun a b => a ++ b) tenBytes 16 16 =
      Except.ok ⟨Status.OK, some 10, streamAt100, [4, 4, 2, 0]⟩ := by rfl
  rw [h3] at h1
  have h4 := Except.ok.inj h1
  refine ⟨r, by rw [h3, h4], by rw [← h4], h2⟩

/-- C20: `total_bytes_read_` is updated only by a full read.  For
`req_length >= 0`, whatever positive counts `hdfsRead` returns first: when they
add up to `req_length`, `Read` returns `Status::OK` with
`actual_length = req_length` and `total_bytes_read_` (and the counter) increased
by it, as an `int64_t`, the plain sum when that is in range; when they add up
to less and the next `hdfsRead` returns 0, `Read` returns `Status::OK` with the
bytes read so far and the stream as it was; when the next `hdfsRead` returns
-1, `Read` returns the error, writes no length and leaves the stream as it
was.  With an `hdfsRead` that returns -1, 0 or a positive count not above the
length asked, every `Read` is one of these three. -/
theorem C20_total_updated_only_when_full (s : HdfsByteStream)
    (AppendHdfsErrorMessage : String → String → String) (hdfsRead : Nat → Int → Int)
    (req_length : Int) (fuel : Nat) (h0 : 0 ≤ req_length) (hv : ValidReads hdfsRead)
    (hfuel : req_length ≤ (fuel : Int)) :
    (∀ counts, Answers hdfsRead req_length 0 0 counts →
      (counts.sum = req_length →
        Read s AppendHdfsErrorMessage hdfsRead req_length fuel =
          Except.ok ⟨Status.OK, some req_length, s.afterFullRead req_length, counts⟩) ∧
      (counts.sum < req_length →
        hdfsRead counts.length (wrapInt32 (req_length - counts.sum)) = 0 →
        Read s AppendHdfsErrorMessage hdfsRead req_length fuel =
          Except.ok ⟨Status.OK, some counts.sum, s, counts ++ [0]⟩) ∧
      (counts.sum < req_length →
        hdfsRead counts.length (wrapInt32 (req_length - counts.sum)) = -1 →
        Read s AppendHdfsErrorMessage hdfsRead req_length fuel =
          Except.ok ⟨Status.error
            (AppendHdfsErrorMessage "Error reading from HDFS file: " s.location_),
            none, s, counts ++ [-1]⟩)) ∧
    (∃ counts, Answers hdfsRead req_length 0 0 counts ∧
      (counts.sum = req_length ∨
        (counts.sum < req_length ∧
          (hdfsRead counts.length (wrapInt32 (req_length - counts.sum)) = 0 ∨
            hdfsRead counts.length (wrapInt32 (req_length - counts.sum)) = -1)))) ∧
    (s.afterFullRead req_length).total_bytes_read_ =
      wrapInt64 (s.total_bytes_read_ + req_length) ∧
    (-9223372036854775808 ≤ s.total_bytes_read_ + req_length →
      s.total_bytes_read_ + req_length < 9223372036854775808 →
      (s.afterFullRead req_length).total_bytes_read_ =
        s.total_bytes_read_ + req_length) := by
  refine ⟨?_, ?_, rfl, fun h1 h2 => wrapInt64_of_range _ h1 h2⟩
  · intro counts ha
    have h := ReadLoop_answers hdfsRead req_length counts fuel 0 0 [] (le_refl 0) h0
      (Or.inl rfl) (by omega) ha
    simp only [zero_add, List.nil_append] at h
    obtain ⟨_, g2, g3, g4⟩ := h
    refine ⟨?_, ?_, ?_⟩
    · intro hs
      exact Read_full s _ hdfsRead req_length fuel _ _ h0 (g2 hs)
    · intro hs hx
      exact Read_eof s _ hdfsRead req_length fuel _ _ h0 (g3 hs hx)
    · intro hs hx
      exact Read_failed s _ hdfsRead req_length fuel _ _ h0 (g4 hs hx)
  · have h := answers_exist hdfsRead req_length hv fuel 0 0 (le_refl 0) h0 (Or.inl rfl)
      (by omega)
    simp only [zero_add] at h
    exact h

/-- Witness of C20: 8 bytes asked of a file of 10 come in two reads of 4 and
take `total_bytes_read_` from 100 to 108; 16 bytes asked give 10 and leave it
at 100. -/
theorem C20_total_updated_only_when_full_witness :
    Read streamAt100 (fun a b => a ++ b) tenBytes 8 8 =
      Except.ok ⟨Status.OK, some 8, ⟨"/data/part-0", 108, 108⟩, [4, 4]⟩ ∧
    Read streamAt100 (fun a b => a ++ b) tenBytes 16 16 =
      Except.ok ⟨Status.OK, some 10, ⟨"/data/part-0", 100, 100⟩, [4, 4, 2, 0]⟩ :=
  ⟨((C20_total_updated_only_when_full streamAt100 (fun a b => a ++ b) tenBytes 8 8
      (by decide) ValidReads_tenBytes (by decide)).1 [4, 4]
      (by simp only [Answers]; decide)).1 (by decide),
    ((C20_total_updated_only_when_full streamAt100 (fun a b => a ++ b) tenBytes 16 16
      (by decide) ValidReads_tenBytes (by decide)).1 [4, 4, 2]
      (by simp only [Answers]; decide)).2.1 (by decide) (by decide)⟩

end impala
